import Mathlib

/-!
Shallow embedding of the infrared search engine core (package search:
search.go, heap.go, and the document model of doc.go), with the theorems
about its specification.

Modelling conventions:
* Go strings that are processed rune-by-rune (document content, index terms)
  are modelled as lists of characters; document names are plain strings used
  only as map keys.
* Go float64 arithmetic is modelled over the reals.
* Go maps are modelled as association lists; the unspecified Go map iteration
  order becomes the list (insertion) order.
* The runtime panics of Search are modelled by returning none from search:
  make([]SearchResult, 0, opts.Limit) panics when the limit is negative, and
  the empty-heap access (*h)[0] panics when the heap is at (zero) capacity.
-/

/-- Terms (unigrams, bigrams, trigrams) are Go strings processed rune-wise,
modelled as lists of characters. -/
abbrev Term : Type := List Char

/-- Embedding of the Document struct (doc.go): only the fields the engine
core reads. length is the recorded word count. -/
structure Document where
  name : String
  content : List Char
  length : Nat

/-- Embedding of the SearchResult struct: a document together with its score. -/
structure SearchResult where
  doc : Document
  score : ℝ

/-- Embedding of the TermFreq struct: idf plus the map from document name to
accumulated term frequency. -/
structure TermFreq where
  idf : ℝ
  tfMap : List (String × ℝ)

/-- Embedding of the Index struct: the term map and the owned documents. -/
structure Index where
  tMap : List (Term × TermFreq)
  docs : List Document

/-- Character filter of DefaultNormalizer (storage.go): keep letters, digits
and whitespace, drop everything else. -/
def keepChar (c : Char) : Bool := c.isAlpha || c.isDigit || c.isWhitespace

/-- Embedding of DefaultNormalizer (storage.go): lowercase, then strip
characters that are not letters/digits/whitespace. -/
def defaultNormalizer (s : List Char) : List Char :=
  (s.map Char.toLower).filter keepChar

/-- Helper for fields: accumulate the current word (reversed) while scanning. -/
def fieldsAux : List Char → List Char → List Term
  | [], acc => if acc = [] then [] else [acc.reverse]
  | c :: rest, acc =>
    if c.isWhitespace then
      if acc = [] then fieldsAux rest [] else acc.reverse :: fieldsAux rest []
    else fieldsAux rest (c :: acc)

/-- Embedding of strings.Fields: split around runs of whitespace. -/
def fields (s : List Char) : List Term := fieldsAux s []

/-- Embedding of strings.Join(words, " "). -/
def joinSpace : List Term → Term
  | [] => []
  | [w] => w
  | w :: ws => w ++ ' ' :: joinSpace ws

/-- Embedding of ngrams (search.go): if there are fewer than n words, return
the words unchanged; otherwise all space-joined windows of length n. -/
def ngrams (words : List Term) (n : Nat) : List Term :=
  if words.length < n then words
  else (List.range (words.length - n + 1)).map (fun i => joinSpace ((words.drop i).take n))

/-- Embedding of buildNGrams (search.go): the words followed by their bigrams
and trigrams, both computed from the original word sequence. -/
def buildNGrams (content : List Term) : List Term :=
  content ++ ngrams content 2 ++ ngrams content 3

/-- Embedding of TfMap[k] += v on the Go map (missing key reads as 0). -/
noncomputable def tfAdd : List (String × ℝ) → String → ℝ → List (String × ℝ)
  | [], k, v => [(k, v)]
  | q :: m, k, v => if q.1 = k then (q.1, q.2 + v) :: m else q :: tfAdd m k v

/-- Embedding of one iteration of the word loop in build (search.go):
create the TermFreq entry if absent (zero idf, empty tfMap), then add v to
its tfMap at the document name. -/
noncomputable def addTerm : List (Term × TermFreq) → Term → String → ℝ → List (Term × TermFreq)
  | [], w, nm, v => [(w, ⟨0, tfAdd [] nm v⟩)]
  | p :: tm, w, nm, v =>
    if p.1 = w then (p.1, ⟨p.2.idf, tfAdd p.2.tfMap nm v⟩) :: tm
    else p :: addTerm tm w nm v

/-- Terms a document contributes to the index: buildNGrams over the fields of
its normalized content (build, search.go). -/
def docTerms (norm : List Char → List Char) (d : Document) : List Term :=
  buildNGrams (fields (norm d.content))

/-- Embedding of the per-document part of build: each produced word adds
1/doc.Length to its entry at the document's name. -/
noncomputable def indexDoc (norm : List Char → List Char) (tm : List (Term × TermFreq)) (d : Document) :
    List (Term × TermFreq) :=
  (docTerms norm d).foldl (fun tm w => addTerm tm w d.name (1 / (d.length : ℝ))) tm

/-- First pass of build (search.go): accumulate term frequencies over all
documents, starting from the freshly made empty map. -/
noncomputable def phase1 (norm : List Char → List Char) (docs : List Document) : List (Term × TermFreq) :=
  docs.foldl (indexDoc norm) []

/-- Embedding of maxThreshold (search.go): 1/sqrt(max(docCount,10)/10),
floored at 0.05. -/
noncomputable def maxThreshold (docCount : Nat) : ℝ :=
  let f := 1 / Real.sqrt (max (docCount : ℝ) 10 / 10)
  if f < 0.05 then 0.05 else f

/-- Second pass of build (search.go): set idf = docCount/len(tfMap) for every
term, then delete the terms with 1/idf >= maxThreshold.  The Go code deletes
while ranging over the map; since each key's decision depends only on its own
entry, this is a map followed by a filter. -/
noncomputable def finalize (docCount : Nat) (tm : List (Term × TermFreq)) :
    List (Term × TermFreq) :=
  (tm.map (fun p => (p.1, TermFreq.mk ((docCount : ℝ) / (p.2.tfMap.length : ℝ)) p.2.tfMap))).filter
    (fun p => decide (¬ (1 / p.2.idf ≥ maxThreshold docCount)))

/-- Embedding of NewIndex followed by build: NewIndex always installs
DefaultNormalizer, so every built index uses it. -/
noncomputable def buildIndex (docs : List Document) : Index :=
  ⟨finalize docs.length (phase1 defaultNormalizer docs), docs⟩

/-- Embedding of the Go map read idx.TMap[term]: the entry, or the zero
TermFreq (idf 0, nil map) when the term is absent. -/
def lookupTermFreq (idx : Index) (t : Term) : TermFreq :=
  match idx.tMap.find? (fun p => p.1 == t) with
  | some p => p.2
  | none => ⟨0, []⟩

/-- Embedding of tf (search.go): idx.TMap[term].TfMap[docName], 0 if absent. -/
noncomputable def tfVal (idx : Index) (t : Term) (docName : String) : ℝ :=
  match (lookupTermFreq idx t).tfMap.find? (fun q => q.1 == docName) with
  | some q => q.2
  | none => 0

/-- Embedding of idf (search.go): the table value, or 1.0 when the stored idf
is 0 (in particular for terms absent from the table). -/
noncomputable def idf (idx : Index) (t : Term) : ℝ :=
  if (lookupTermFreq idx t).idf = 0 then 1 else (lookupTermFreq idx t).idf

/-- Embedding of tfNorm (search.go): L2 norm of (log idf * tf) over the
term's tfMap, with 1.0 substituted when the sum is 0. -/
noncomputable def tfNorm (idx : Index) (t : Term) : ℝ :=
  let e := lookupTermFreq idx t
  let normSum := (e.tfMap.map (fun q => (Real.log e.idf * q.2) * (Real.log e.idf * q.2))).sum
  if normSum = 0 then 1 else Real.sqrt normSum

/-- Embedding of tfLogIdf (search.go). -/
noncomputable def tfLogIdf (idx : Index) (t : Term) (docName : String) : ℝ :=
  tfVal idx t docName * Real.log (idf idx t) / tfNorm idx t

/-- Embedding of strings.ToLower on a term. -/
def lowerTerm (t : Term) : Term := t.map Char.toLower

/-- One iteration of the term loop in docScore (search.go).  Note the Go code
lowercases the term for tfLogIdf but uses the raw term for the idf weight. -/
noncomputable def scoreStep (idx : Index) (docName : String) (acc : ℝ × ℝ) (t : Term) : ℝ × ℝ :=
  let termScore := tfLogIdf idx (lowerTerm t) docName
  if 0 < termScore then
    (acc.1 + Real.log (idf idx t) * Real.log termScore, acc.2 + Real.log (idf idx t))
  else acc

/-- Embedding of docScore (search.go): weighted geometric mean over the
n-gram-expanded query terms; 0 when the weight total is 0. -/
noncomputable def docScore (idx : Index) (terms : List Term) (doc : Document) : SearchResult :=
  let acc := (buildNGrams terms).foldl (scoreStep idx doc.name) (0, 0)
  ⟨doc, if acc.2 = 0 then 0 else Real.exp (acc.1 / acc.2)⟩

/-- Set insertion for the candidate collection (Go uses map[string]bool). -/
def insertName (cs : List String) (nm : String) : List String :=
  if nm ∈ cs then cs else cs ++ [nm]

/-- Candidate collection in Search (search.go): all document names appearing
in the tfMap of some expanded query term found in the table. -/
def candidateNames (idx : Index) (queryTerms : List Term) : List String :=
  queryTerms.foldl (fun cs t =>
    match idx.tMap.find? (fun p => p.1 == t) with
    | some p => p.2.tfMap.foldl (fun cs q => insertName cs q.1) cs
    | none => cs) []

/-- Zero SearchResult used as the default of bounds-checked list accesses. -/
noncomputable def dummyResult : SearchResult := ⟨⟨"", [], 0⟩, 0⟩

/-- Swap of two heap slots (resultHeap.Swap, heap.go). -/
noncomputable def hswap (l : List SearchResult) (i j : Nat) : List SearchResult :=
  (l.set i (l.getD j dummyResult)).set j (l.getD i dummyResult)

/-- Embedding of container/heap's up sift on resultHeap: Less compares
scores with <. -/
noncomputable def upHeap : List SearchResult → Nat → List SearchResult
  | l, 0 => l
  | l, j + 1 =>
    if (l.getD (j + 1) dummyResult).score < (l.getD (j / 2) dummyResult).score then
      upHeap (hswap l (j / 2) (j + 1)) (j / 2)
    else l
termination_by _ j => j
decreasing_by simp_wf; omega

/-- Child index chosen by container/heap's down sift: the left child 2i+1,
or the right child 2i+2 when it is in range and has the smaller score. -/
noncomputable def heapChild (l : List SearchResult) (i n : Nat) : Nat :=
  if 2 * i + 2 < n ∧ (l.getD (2 * i + 2) dummyResult).score < (l.getD (2 * i + 1) dummyResult).score
  then 2 * i + 2 else 2 * i + 1

theorem heapChild_lt (l : List SearchResult) (i n : Nat) (h : 2 * i + 1 < n) :
    heapChild l i n < n := by
  unfold heapChild
  split
  next hc => omega
  next => omega

theorem lt_heapChild (l : List SearchResult) (i n : Nat) : i < heapChild l i n := by
  unfold heapChild
  split <;> omega

/-- Embedding of container/heap's down sift on resultHeap, restricted to the
first n slots. -/
noncomputable def downHeap (l : List SearchResult) (i n : Nat) : List SearchResult :=
  if h : 2 * i + 1 < n then
    if (l.getD (heapChild l i n) dummyResult).score < (l.getD i dummyResult).score then
      downHeap (hswap l i (heapChild l i n)) (heapChild l i n) n
    else l
  else l
termination_by n - i
decreasing_by
  have h1 := heapChild_lt l i n h
  have h2 := lt_heapChild l i n
  omega

/-- Embedding of heap.Push on resultHeap: append, then sift up from the last
slot. -/
noncomputable def heapPush (l : List SearchResult) (x : SearchResult) : List SearchResult :=
  upHeap (l ++ [x]) ((l ++ [x]).length - 1)

/-- Embedding of heap.Pop on resultHeap: swap root and last, sift the root
down over the first length-1 slots, then remove and return the last slot. -/
noncomputable def heapPop (l : List SearchResult) : SearchResult × List SearchResult :=
  let l2 := downHeap (hswap l 0 (l.length - 1)) 0 (l.length - 1)
  (l2.getLastD dummyResult, l2.dropLast)

/-- Embedding of the Go map read idx.docs[name]: the document, or the zero
Document value when the name is absent. -/
noncomputable def docLookup (idx : Index) (nm : String) : Document :=
  match idx.docs.find? (fun d => d.name == nm) with
  | some d => d
  | none => ⟨"", [], 0⟩

/-- One iteration of the candidate loop of Search (search.go): look the
candidate document up, score it, and when the score is positive append it to
results and maintain the bounded min-heap.  When the heap is at capacity the
Go code reads (*h)[0], which panics on an empty heap (limit <= 0): that is
the none case. -/
noncomputable def searchStep (idx : Index) (terms : List Term) (limit : ℤ)
    (nm : String) (results h : List SearchResult) :
    Option (List SearchResult × List SearchResult) :=
  let sr := docScore idx terms (docLookup idx nm)
  if 0 < sr.score then
    if (h.length : ℤ) < limit then some (results ++ [sr], heapPush h sr)
    else
      match h with
      | [] => none
      | top :: rest2 =>
        if top.score < sr.score then
          some (results ++ [sr], heapPush (heapPop (top :: rest2)).2 sr)
        else some (results ++ [sr], top :: rest2)
  else some (results, h)

/-- Main candidate loop of Search (search.go): searchStep over each
candidate name, threading results and heap. -/
noncomputable def searchLoop (idx : Index) (terms : List Term) (limit : ℤ) :
    List String → List SearchResult → List SearchResult →
    Option (List SearchResult × List SearchResult)
  | [], results, h => some (results, h)
  | nm :: rest, results, h =>
    match searchStep idx terms limit nm results h with
    | none => none
    | some rh => searchLoop idx terms limit rest rh.1 rh.2

/-- Final drain loop of Search: for i from h.Len()-1 down to 0, overwrite
results[i] with heap.Pop(h). -/
noncomputable def drainLoop : List SearchResult → List SearchResult → Nat → List SearchResult
  | results, _, 0 => results
  | results, h, i + 1 => drainLoop (results.set i (heapPop h).1) (heapPop h).2 i

/-- Embedding of Index.Search (search.go) with opts.Limit = limit: candidate
collection, the scoring/heap loop, then the drain.  none models the Go
runtime panics: make([]SearchResult, 0, opts.Limit) panics outright whenever
the limit is negative (before any candidate is processed), and the
empty-heap access (*h)[0] inside the loop panics when the limit is 0 and a
candidate scores positively. -/
noncomputable def search (idx : Index) (terms : List Term) (limit : ℤ) :
    Option (List SearchResult) :=
  if limit < 0 then none
  else
    match searchLoop idx terms limit (candidateNames idx (buildNGrams terms)) [] [] with
    | none => none
    | some (results, h) => some (drainLoop results h h.length)

/-- Lookup of the recorded term frequency of term w for document nm in a term
map (0 when either key is absent). -/
noncomputable def recordedTF (tm : List (Term × TermFreq)) (w : Term) (nm : String) : ℝ :=
  match tm.find? (fun p => p.1 == w) with
  | some p =>
    (match p.2.tfMap.find? (fun q => q.1 == nm) with
     | some q => q.2
     | none => 0)
  | none => 0

theorem addTerm_nil (w : Term) (nm : String) (v : ℝ) :
    addTerm [] w nm v = [(w, ⟨0, [(nm, v)]⟩)] := rfl

theorem addTerm_cons_eq (p : Term × TermFreq) (tm : List (Term × TermFreq))
    (nm : String) (v : ℝ) :
    addTerm (p :: tm) p.1 nm v = (p.1, ⟨p.2.idf, tfAdd p.2.tfMap nm v⟩) :: tm := by
  simp [addTerm]

theorem addTerm_cons_ne (p : Term × TermFreq) (tm : List (Term × TermFreq))
    (w : Term) (nm : String) (v : ℝ) (h : p.1 ≠ w) :
    addTerm (p :: tm) w nm v = p :: addTerm tm w nm v := by
  simp [addTerm, h]

theorem tfAdd_cons_eq (q : String × ℝ) (m : List (String × ℝ)) (v : ℝ) :
    tfAdd (q :: m) q.1 v = (q.1, q.2 + v) :: m := by
  simp [tfAdd]

/-- Every word produced by fieldsAux contains no whitespace characters,
provided the accumulator contains none. -/
theorem fieldsAux_no_whitespace (s : List Char) :
    ∀ acc : List Char, (∀ c ∈ acc, ¬ c.isWhitespace) →
    ∀ w ∈ fieldsAux s acc, ∀ c ∈ w, ¬ c.isWhitespace = true := by
  induction s with
  | nil =>
    intro acc hacc w hw c hc
    by_cases h : acc = [] <;> simp [fieldsAux, h] at hw
    subst hw
    exact hacc c (List.mem_reverse.mp hc)
  | cons a rest ih =>
    intro acc hacc w hw c hc
    by_cases hws : a.isWhitespace
    · by_cases h : acc = []
      · rw [show fieldsAux (a :: rest) acc = fieldsAux rest [] by simp [fieldsAux, hws, h]] at hw
        exact ih [] (by simp) w hw c hc
      · rw [show fieldsAux (a :: rest) acc = acc.reverse :: fieldsAux rest [] by
              simp [fieldsAux, hws, h]] at hw
        rcases List.mem_cons.mp hw with h1 | h1
        · subst h1
          exact hacc c (List.mem_reverse.mp hc)
        · exact ih [] (by simp) w h1 c hc
    · rw [show fieldsAux (a :: rest) acc = fieldsAux rest (a :: acc) by
            simp [fieldsAux, hws]] at hw
      refine ih (a :: acc) ?_ w hw c hc
      intro c' hc'
      rcases List.mem_cons.mp hc' with h1 | h1
      · subst h1; exact hws
      · exact hacc c' h1

/-- Words produced by fields contain no whitespace characters. -/
theorem fields_no_whitespace (s : List Char) :
    ∀ w ∈ fields s, ∀ c ∈ w, ¬ c.isWhitespace = true :=
  fieldsAux_no_whitespace s [] (by simp)

/-- The space-join of two words differs from each of them when neither word
contains whitespace. -/
theorem joinSpace_pair_ne (w1 w2 : Term) (h1 : ∀ c ∈ w1, ¬ c.isWhitespace = true)
    (h2 : ∀ c ∈ w2, ¬ c.isWhitespace = true) :
    joinSpace [w1, w2] ≠ w1 ∧ joinSpace [w1, w2] ≠ w2 := by
  have hj : joinSpace [w1, w2] = w1 ++ ' ' :: w2 := rfl
  have hsp : (' ' : Char).isWhitespace = true := by decide
  constructor
  · intro h
    rw [hj] at h
    have : (' ' : Char) ∈ w1 := by
      have := h ▸ List.mem_append_right w1 (List.mem_cons_self ' ' w2)
      exact this
    exact h1 _ this hsp
  · intro h
    rw [hj] at h
    have hlen := congrArg List.length h
    simp [List.length_append] at hlen
    omega

/-- C9: for every word sequence with fewer than N words (N = 2 or 3), the
n-gram function for that N returns the original word sequence unchanged. -/
theorem c9_short_ngrams_identity (words : List Term) :
    (words.length < 2 → ngrams words 2 = words) ∧
    (words.length < 3 → ngrams words 3 = words) := by
  constructor <;> intro h <;> simp [ngrams, h]

theorem c9_short_ngrams_identity_witness :
    ([['x']].length < 2 ∧ ngrams [['x']] 2 = [['x']]) ∧
    ([['x'], ['y']].length < 3 ∧ ngrams [['x'], ['y']] 3 = [['x'], ['y']]) :=
  ⟨⟨by decide, (c9_short_ngrams_identity [['x']]).1 (by decide)⟩,
   ⟨by decide, (c9_short_ngrams_identity [['x'], ['y']]).2 (by decide)⟩⟩

theorem addTerm_hit_pair (w : Term) (i : ℝ) (m : List (String × ℝ)) (nm : String) (v : ℝ)
    (tm : List (Term × TermFreq)) :
    addTerm ((w, ⟨i, m⟩) :: tm) w nm v = (w, ⟨i, tfAdd m nm v⟩) :: tm := by
  simp [addTerm]

theorem addTerm_miss_pair (u w : Term) (e : TermFreq) (nm : String) (v : ℝ)
    (tm : List (Term × TermFreq)) (h : u ≠ w) :
    addTerm ((u, e) :: tm) w nm v = (u, e) :: addTerm tm w nm v := by
  simp [addTerm, h]

theorem tfAdd_single (nm : String) (v w : ℝ) :
    tfAdd [(nm, v)] nm w = [(nm, v + w)] := by
  simp [tfAdd]

/-- Evaluation of the word loop over a one-word document's expanded terms. -/
theorem fold_one_word (w : Term) (nm : String) (v : ℝ) :
    List.foldl (fun tm u => addTerm tm u nm v) [] [w, w, w] =
      [(w, ⟨0, [(nm, v + v + v)]⟩)] := by
  simp only [List.foldl_cons, List.foldl_nil]
  rw [addTerm_nil, addTerm_hit_pair, tfAdd_single, addTerm_hit_pair, tfAdd_single]

/-- Evaluation of the word loop over a two-word document's expanded terms. -/
theorem fold_two_words (w1 w2 j : Term) (nm : String) (v : ℝ)
    (h12 : w1 ≠ w2) (h1j : w1 ≠ j) (h2j : w2 ≠ j) :
    List.foldl (fun tm u => addTerm tm u nm v) [] [w1, w2, j, w1, w2] =
      [(w1, ⟨0, [(nm, v + v)]⟩), (w2, ⟨0, [(nm, v + v)]⟩), (j, ⟨0, [(nm, v)]⟩)] := by
  simp only [List.foldl_cons, List.foldl_nil]
  rw [addTerm_nil]
  rw [addTerm_miss_pair _ _ _ _ _ _ h12, addTerm_nil]
  rw [addTerm_miss_pair _ _ _ _ _ _ h1j, addTerm_miss_pair _ _ _ _ _ _ h2j, addTerm_nil]
  rw [addTerm_hit_pair, tfAdd_single]
  rw [addTerm_miss_pair _ _ _ _ _ _ h12, addTerm_hit_pair, tfAdd_single]

/-- C10: buildNGrams on a single word returns the word three times (both
n-gram expansions fall back to the original sequence), so build records term
frequency 3/length for the sole word of a one-word document, and each unigram
of a two-word document is counted twice. -/
theorem c10_ngram_fallback_inflation :
    (∀ w : Term, buildNGrams [w] = [w, w, w] ∧ ngrams [w] 2 = [w] ∧ ngrams [w] 3 = [w]) ∧
    (∀ (d : Document) (w : Term), fields (defaultNormalizer d.content) = [w] →
      recordedTF (phase1 defaultNormalizer [d]) w d.name = 3 / (d.length : ℝ)) ∧
    (∀ (d : Document) (w1 w2 : Term), fields (defaultNormalizer d.content) = [w1, w2] →
      w1 ≠ w2 →
      recordedTF (phase1 defaultNormalizer [d]) w1 d.name = 2 / (d.length : ℝ) ∧
      recordedTF (phase1 defaultNormalizer [d]) w2 d.name = 2 / (d.length : ℝ)) := by
  refine ⟨?_, ?_, ?_⟩
  · intro w
    refine ⟨?_, ?_, ?_⟩ <;> simp [buildNGrams, ngrams]
  · intro d w hf
    have hdt : docTerms defaultNormalizer d = [w, w, w] := by
      simp [docTerms, hf, buildNGrams, ngrams]
    have h1 : phase1 defaultNormalizer [d] =
        [(w, ⟨0, [(d.name, 1 / (d.length : ℝ) + 1 / (d.length : ℝ) + 1 / (d.length : ℝ))]⟩)] := by
      simp only [phase1, List.foldl_cons, List.foldl_nil, indexDoc, hdt]
      exact fold_one_word w d.name (1 / (d.length : ℝ))
    rw [h1]
    simp [recordedTF]
    ring
  · intro d w1 w2 hf hne
    have hnw1 : ∀ c ∈ w1, ¬ c.isWhitespace = true := by
      intro c hc
      exact fields_no_whitespace _ w1 (by rw [hf]; simp) c hc
    have hnw2 : ∀ c ∈ w2, ¬ c.isWhitespace = true := by
      intro c hc
      exact fields_no_whitespace _ w2 (by rw [hf]; simp) c hc
    obtain ⟨hj1, hj2⟩ := joinSpace_pair_ne w1 w2 hnw1 hnw2
    have hdt : docTerms defaultNormalizer d = [w1, w2, joinSpace [w1, w2], w1, w2] := by
      simp [docTerms, hf, buildNGrams, ngrams, List.range_succ]
    have h1 : phase1 defaultNormalizer [d] =
        [(w1, ⟨0, [(d.name, 1 / (d.length : ℝ) + 1 / (d.length : ℝ))]⟩),
         (w2, ⟨0, [(d.name, 1 / (d.length : ℝ) + 1 / (d.length : ℝ))]⟩),
         (joinSpace [w1, w2], ⟨0, [(d.name, 1 / (d.length : ℝ))]⟩)] := by
      simp only [phase1, List.foldl_cons, List.foldl_nil, indexDoc, hdt]
      exact fold_two_words w1 w2 (joinSpace [w1, w2]) d.name (1 / (d.length : ℝ))
        hne (fun h => hj1 h.symm) (fun h => hj2 h.symm)
    rw [h1]
    constructor
    · simp [recordedTF]
      ring
    · simp [recordedTF, hne, hne.symm]
      ring

theorem c10_ngram_fallback_inflation_witness :
    (buildNGrams [['x']] = [['x'], ['x'], ['x']]) ∧
    (fields (defaultNormalizer (⟨"a", ['x'], 1⟩ : Document).content) = [['x']] ∧
      recordedTF (phase1 defaultNormalizer [(⟨"a", ['x'], 1⟩ : Document)]) ['x']
        (⟨"a", ['x'], 1⟩ : Document).name = 3 / ((⟨"a", ['x'], 1⟩ : Document).length : ℝ)) ∧
    (fields (defaultNormalizer (⟨"b", ['x', ' ', 'y'], 2⟩ : Document).content) = [['x'], ['y']] ∧
      recordedTF (phase1 defaultNormalizer [(⟨"b", ['x', ' ', 'y'], 2⟩ : Document)]) ['x']
        (⟨"b", ['x', ' ', 'y'], 2⟩ : Document).name = 2 / ((⟨"b", ['x', ' ', 'y'], 2⟩ : Document).length : ℝ)) :=
  ⟨(c10_ngram_fallback_inflation.1 ['x']).1,
   ⟨by decide,
    c10_ngram_fallback_inflation.2.1 (⟨"a", ['x'], 1⟩ : Document) ['x'] (by decide)⟩,
   ⟨by decide,
    (c10_ngram_fallback_inflation.2.2 (⟨"b", ['x', ' ', 'y'], 2⟩ : Document) ['x'] ['y']
      (by decide) (by decide)).1⟩⟩

theorem maxThreshold_ten : maxThreshold 10 = 1 := by
  unfold maxThreshold
  norm_num

theorem maxThreshold_thousand : maxThreshold 1000 = 1 / 10 := by
  unfold maxThreshold
  rw [show max ((1000 : Nat) : ℝ) 10 = 1000 by rw [max_eq_left]; norm_num; norm_num]
  rw [show ((1000 : ℝ) / 10) = 10 ^ 2 by norm_num]
  rw [Real.sqrt_sq (by norm_num)]
  norm_num

theorem maxThreshold_two : maxThreshold 2 = 1 := by
  unfold maxThreshold
  rw [show max ((2 : Nat) : ℝ) 10 = 10 by rw [max_eq_right]; norm_num]
  norm_num

/-- The pruning threshold is at most 1. -/
theorem maxThreshold_le_one (dc : Nat) : maxThreshold dc ≤ 1 := by
  unfold maxThreshold
  have h10 : (10 : ℝ) ≤ max (dc : ℝ) 10 := le_max_right _ _
  have harg : (1 : ℝ) ≤ max (dc : ℝ) 10 / 10 := by linarith
  have hs : (1 : ℝ) ≤ Real.sqrt (max (dc : ℝ) 10 / 10) := by
    rw [show (1 : ℝ) = Real.sqrt 1 by rw [Real.sqrt_one]]
    exact Real.sqrt_le_sqrt harg
  have hf : 1 / Real.sqrt (max (dc : ℝ) 10 / 10) ≤ 1 := by
    rw [div_le_one (by linarith)]
    linarith
  by_cases h : 1 / Real.sqrt (max (dc : ℝ) 10 / 10) < 0.05
  · rw [if_pos h]; norm_num
  · rw [if_neg h]; exact hf

/-- The pruning threshold is strictly positive. -/
theorem maxThreshold_pos (dc : Nat) : 0 < maxThreshold dc := by
  unfold maxThreshold
  have h10 : (10 : ℝ) ≤ max (dc : ℝ) 10 := le_max_right _ _
  have hs : 0 < Real.sqrt (max (dc : ℝ) 10 / 10) := Real.sqrt_pos.mpr (by linarith)
  by_cases h : 1 / Real.sqrt (max (dc : ℝ) 10 / 10) < 0.05
  · rw [if_pos h]; norm_num
  · rw [if_neg h]; positivity

/-- C3: a term is pruned during build exactly when 1/idf meets or exceeds
maxThreshold, the threshold equals 1/sqrt(max(docCount,10)/10) floored at
0.05, with docCount 10 exactly the terms in all 10 documents are pruned, and
with docCount 1000 exactly the terms in at least 100 documents are pruned. -/
theorem c3_pruning_rule (docs : List Document) (t : Term) :
    ((∃ e, (t, e) ∈ (buildIndex docs).tMap) ↔
      (∃ e, (t, e) ∈ phase1 defaultNormalizer docs ∧
        ¬ (1 / ((docs.length : ℝ) / (e.tfMap.length : ℝ)) ≥ maxThreshold docs.length))) ∧
    (∀ dc : Nat, maxThreshold dc = max (1 / Real.sqrt (max (dc : ℝ) 10 / 10)) 0.05) ∧
    (∀ n : Nat, 1 ≤ n → n ≤ 10 →
      ((1 / ((10 : ℝ) / (n : ℝ)) ≥ maxThreshold 10) ↔ n = 10)) ∧
    (∀ n : Nat, 1 ≤ n →
      ((1 / ((1000 : ℝ) / (n : ℝ)) ≥ maxThreshold 1000) ↔ 100 ≤ n)) := by
  refine ⟨?_, ?_, ?_, ?_⟩
  · constructor
    · rintro ⟨e, he⟩
      simp only [buildIndex, finalize, List.mem_filter, List.mem_map] at he
      obtain ⟨⟨p0, hmem, heq⟩, hpred⟩ := he
      rw [Prod.ext_iff] at heq
      simp only at heq
      obtain ⟨ht, he2⟩ := heq
      refine ⟨p0.2, ?_, ?_⟩
      · rw [← ht]
        simpa using hmem
      · have hp := of_decide_eq_true hpred
        rw [← he2] at hp
        simpa using hp
    · rintro ⟨e, hmem, hcond⟩
      refine ⟨⟨(docs.length : ℝ) / (e.tfMap.length : ℝ), e.tfMap⟩, ?_⟩
      simp only [buildIndex, finalize, List.mem_filter, List.mem_map]
      refine ⟨⟨(t, e), hmem, rfl⟩, ?_⟩
      exact decide_eq_true (by simpa using hcond)
  · intro dc
    unfold maxThreshold
    rcases lt_or_ge (1 / Real.sqrt (max (dc : ℝ) 10 / 10)) 0.05 with h | h
    · rw [if_pos h, max_eq_right (le_of_lt h)]
    · rw [if_neg (not_lt.mpr h), max_eq_left h]
  · intro n h1 h10
    rw [maxThreshold_ten, ge_iff_le, one_div_div, le_div_iff (by norm_num)]
    constructor
    · intro h
      have : (10 : ℝ) ≤ (n : ℝ) := by linarith
      have : (10 : ℕ) ≤ n := by exact_mod_cast this
      omega
    · intro h
      subst h
      norm_num
  · intro n h1
    rw [maxThreshold_thousand, ge_iff_le, one_div_div, div_le_div_iff (by norm_num) (by norm_num)]
    constructor
    · intro h
      have : (100 : ℝ) ≤ (n : ℝ) := by linarith
      exact_mod_cast this
    · intro h
      have : (100 : ℝ) ≤ (n : ℝ) := by exact_mod_cast h
      linarith

theorem c3_pruning_rule_witness :
    ((1 : ℕ) ≤ 10 ∧ (10 : ℕ) ≤ 10 ∧
      ((1 / ((10 : ℝ) / ((10 : ℕ) : ℝ)) ≥ maxThreshold 10) ↔ (10 : ℕ) = 10)) ∧
    ((1 : ℕ) ≤ 99 ∧
      ((1 / ((1000 : ℝ) / ((99 : ℕ) : ℝ)) ≥ maxThreshold 1000) ↔ 100 ≤ (99 : ℕ))) :=
  ⟨⟨by norm_num, by norm_num, (c3_pruning_rule [] []).2.2.1 10 (by norm_num) (by norm_num)⟩,
   ⟨by norm_num, (c3_pruning_rule [] []).2.2.2 99 (by norm_num)⟩⟩

theorem tfAdd_ne_nil (m : List (String × ℝ)) (k : String) (v : ℝ) : tfAdd m k v ≠ [] := by
  cases m with
  | nil => simp [tfAdd]
  | cons q m => simp only [tfAdd]; split <;> simp

/-- Keys of tfAdd: unchanged if the key is present, appended otherwise. -/
theorem tfAdd_keys (m : List (String × ℝ)) (k : String) (v : ℝ) :
    (tfAdd m k v).map Prod.fst =
      if k ∈ m.map Prod.fst then m.map Prod.fst else m.map Prod.fst ++ [k] := by
  induction m with
  | nil => simp [tfAdd]
  | cons q m ih =>
    by_cases h : q.1 = k
    · simp [tfAdd, h]
    · simp only [tfAdd, if_neg h, List.map_cons, ih]
      have : ¬ k = q.1 := fun hh => h hh.symm
      by_cases h2 : k ∈ m.map Prod.fst <;> simp [h2, this]

theorem tfAdd_values (m : List (String × ℝ)) (k : String) (v : ℝ) :
    ∀ q ∈ tfAdd m k v, q ∈ m ∨ (q.1 = k ∧ (q.2 = v ∨ ∃ q0 ∈ m, q.2 = q0.2 + v)) := by
  induction m with
  | nil =>
    intro q hq
    simp [tfAdd] at hq
    subst hq
    exact Or.inr ⟨rfl, Or.inl rfl⟩
  | cons q0 m ih =>
    intro q hq
    by_cases h : q0.1 = k
    · simp only [tfAdd, if_pos h] at hq
      rcases List.mem_cons.mp hq with h1 | h1
      · subst h1
        exact Or.inr ⟨h, Or.inr ⟨q0, List.mem_cons_self _ _, rfl⟩⟩
      · exact Or.inl (List.mem_cons_of_mem _ h1)
    · simp only [tfAdd, if_neg h] at hq
      rcases List.mem_cons.mp hq with h1 | h1
      · exact Or.inl (h1 ▸ List.mem_cons_self _ _)
      · rcases ih q h1 with h2 | ⟨h2, h3⟩
        · exact Or.inl (List.mem_cons_of_mem _ h2)
        · refine Or.inr ⟨h2, ?_⟩
          rcases h3 with h3 | ⟨q1, hq1, h4⟩
          · exact Or.inl h3
          · exact Or.inr ⟨q1, List.mem_cons_of_mem _ hq1, h4⟩

/-- Keys of addTerm: unchanged if the term is present, appended otherwise. -/
theorem addTerm_keys (tm : List (Term × TermFreq)) (w : Term) (nm : String) (v : ℝ) :
    (addTerm tm w nm v).map Prod.fst =
      if w ∈ tm.map Prod.fst then tm.map Prod.fst else tm.map Prod.fst ++ [w] := by
  induction tm with
  | nil => simp [addTerm]
  | cons p tm ih =>
    by_cases h : p.1 = w
    · rw [show addTerm (p :: tm) w nm v = (p.1, ⟨p.2.idf, tfAdd p.2.tfMap nm v⟩) :: tm from by
        simp [addTerm, h]]
      rw [if_pos (by rw [List.map_cons, h]; exact List.mem_cons_self _ _)]
      simp
    · simp only [addTerm, if_neg h, List.map_cons, ih]
      have : ¬ w = p.1 := fun hh => h hh.symm
      by_cases h2 : w ∈ tm.map Prod.fst <;> simp [h2, this]

theorem addTerm_entries (tm : List (Term × TermFreq)) (w : Term) (nm : String) (v : ℝ) :
    ∀ p ∈ addTerm tm w nm v,
      p ∈ tm ∨ (p.1 = w ∧ (p.2.tfMap = tfAdd [] nm v ∧ p.2.idf = 0 ∨
        ∃ p0 ∈ tm, p0.1 = w ∧ p.2.idf = p0.2.idf ∧ p.2.tfMap = tfAdd p0.2.tfMap nm v)) := by
  induction tm with
  | nil =>
    intro p hp
    simp [addTerm] at hp
    subst hp
    exact Or.inr ⟨rfl, Or.inl ⟨rfl, rfl⟩⟩
  | cons p0 tm ih =>
    intro p hp
    by_cases h : p0.1 = w
    · simp only [addTerm, if_pos h] at hp
      rcases List.mem_cons.mp hp with h1 | h1
      · subst h1
        exact Or.inr ⟨h, Or.inr ⟨p0, List.mem_cons_self _ _, h, rfl, rfl⟩⟩
      · exact Or.inl (List.mem_cons_of_mem _ h1)
    · simp only [addTerm, if_neg h] at hp
      rcases List.mem_cons.mp hp with h1 | h1
      · exact Or.inl (h1 ▸ List.mem_cons_self _ _)
      · rcases ih p h1 with h2 | ⟨h2, h3⟩
        · exact Or.inl (List.mem_cons_of_mem _ h2)
        · refine Or.inr ⟨h2, ?_⟩
          rcases h3 with h3 | ⟨p1, hp1, h4⟩
          · exact Or.inl h3
          · exact Or.inr ⟨p1, List.mem_cons_of_mem _ hp1, h4⟩

/-- Invariants of the term map maintained by the first build pass: keys are
distinct words drawn from wordOK, idf is still the zero value, and every
tfMap is a nonempty association list with distinct nonnegative entries keyed
by allowed document names. -/
structure TMInv (wordOK : Term → Prop) (names : List String)
    (tm : List (Term × TermFreq)) : Prop where
  tmKeysNodup : (tm.map Prod.fst).Nodup
  keyOK : ∀ p ∈ tm, wordOK p.1
  idfZero : ∀ p ∈ tm, p.2.idf = 0
  tfNonempty : ∀ p ∈ tm, p.2.tfMap ≠ []
  tfKeysNodup : ∀ p ∈ tm, (p.2.tfMap.map Prod.fst).Nodup
  tfNames : ∀ p ∈ tm, ∀ q ∈ p.2.tfMap, q.1 ∈ names
  tfNonneg : ∀ p ∈ tm, ∀ q ∈ p.2.tfMap, 0 ≤ q.2

theorem addTerm_inv (wordOK : Term → Prop) (names : List String)
    (tm : List (Term × TermFreq)) (w : Term) (nm : String) (v : ℝ)
    (hw : wordOK w) (hnm : nm ∈ names) (hv : 0 ≤ v)
    (h : TMInv wordOK names tm) : TMInv wordOK names (addTerm tm w nm v) := by
  have hkeys := addTerm_keys tm w nm v
  have hents := addTerm_entries tm w nm v
  constructor
  · rw [hkeys]
    by_cases h2 : w ∈ tm.map Prod.fst
    · rw [if_pos h2]; exact h.tmKeysNodup
    · rw [if_neg h2]
      refine List.Nodup.append h.tmKeysNodup (List.nodup_singleton w) ?_
      intro a ha hb
      simp at hb
      exact h2 (hb ▸ ha)
  · intro p hp
    rcases hents p hp with h1 | ⟨h1, _⟩
    · exact h.keyOK p h1
    · exact h1 ▸ hw
  · intro p hp
    rcases hents p hp with h1 | ⟨_, h2 | ⟨p0, hp0, _, h3, _⟩⟩
    · exact h.idfZero p h1
    · exact h2.2
    · exact h3 ▸ h.idfZero p0 hp0
  · intro p hp
    rcases hents p hp with h1 | ⟨_, h2 | ⟨p0, _, _, _, h3⟩⟩
    · exact h.tfNonempty p h1
    · rw [h2.1]; exact tfAdd_ne_nil _ _ _
    · rw [h3]; exact tfAdd_ne_nil _ _ _
  · intro p hp
    rcases hents p hp with h1 | ⟨_, h2 | ⟨p0, hp0, _, _, h3⟩⟩
    · exact h.tfKeysNodup p h1
    · rw [h2.1, tfAdd_keys]
      simp
    · rw [h3, tfAdd_keys]
      by_cases h4 : nm ∈ p0.2.tfMap.map Prod.fst
      · rw [if_pos h4]; exact h.tfKeysNodup p0 hp0
      · rw [if_neg h4]
        refine List.Nodup.append (h.tfKeysNodup p0 hp0) (List.nodup_singleton nm) ?_
        intro a ha hb
        simp at hb
        exact h4 (hb ▸ ha)
  · intro p hp q hq
    rcases hents p hp with h1 | ⟨_, h2 | ⟨p0, hp0, _, _, h3⟩⟩
    · exact h.tfNames p h1 q hq
    · rw [h2.1] at hq
      rcases tfAdd_values [] nm v q hq with h4 | ⟨h4, _⟩
      · simp at h4
      · exact h4 ▸ hnm
    · rw [h3] at hq
      rcases tfAdd_values p0.2.tfMap nm v q hq with h4 | ⟨h4, _⟩
      · exact h.tfNames p0 hp0 q h4
      · exact h4 ▸ hnm
  · intro p hp q hq
    rcases hents p hp with h1 | ⟨_, h2 | ⟨p0, hp0, _, _, h3⟩⟩
    · exact h.tfNonneg p h1 q hq
    · rw [h2.1] at hq
      rcases tfAdd_values [] nm v q hq with h4 | ⟨_, h5 | ⟨q0, hq0, _⟩⟩
      · simp at h4
      · exact h5 ▸ hv
      · simp at hq0
    · rw [h3] at hq
      rcases tfAdd_values p0.2.tfMap nm v q hq with h4 | ⟨_, h5 | ⟨q0, hq0, h6⟩⟩
      · exact h.tfNonneg p0 hp0 q h4
      · exact h5 ▸ hv
      · rw [h6]
        exact add_nonneg (h.tfNonneg p0 hp0 q0 hq0) hv

theorem foldWords_inv (wordOK : Term → Prop) (names : List String)
    (nm : String) (v : ℝ) (hnm : nm ∈ names) (hv : 0 ≤ v) :
    ∀ (ws : List Term) (tm : List (Term × TermFreq)), (∀ w ∈ ws, wordOK w) →
      TMInv wordOK names tm →
      TMInv wordOK names (ws.foldl (fun tm w => addTerm tm w nm v) tm) := by
  intro ws
  induction ws with
  | nil => intro tm _ h; simpa using h
  | cons w ws ih =>
    intro tm hws h
    rw [List.foldl_cons]
    exact ih _ (fun u hu => hws u (List.mem_cons_of_mem _ hu))
      (addTerm_inv _ _ _ _ _ _ (hws w (List.mem_cons_self _ _)) hnm hv h)

theorem foldDocs_inv (norm : List Char → List Char) (wordOK : Term → Prop)
    (names : List String) :
    ∀ (l : List Document) (tm : List (Term × TermFreq)),
      (∀ d ∈ l, d.name ∈ names ∧ ∀ w ∈ docTerms norm d, wordOK w) →
      TMInv wordOK names tm →
      TMInv wordOK names (l.foldl (indexDoc norm) tm) := by
  intro l
  induction l with
  | nil => intro tm _ h; simpa using h
  | cons d l ih =>
    intro tm hl h
    rw [List.foldl_cons]
    refine ih _ (fun d' hd' => hl d' (List.mem_cons_of_mem _ hd')) ?_
    obtain ⟨hnm, hws⟩ := hl d (List.mem_cons_self _ _)
    exact foldWords_inv wordOK names d.name (1 / (d.length : ℝ)) hnm (by positivity) _ tm hws h

/-- The invariants hold of the full first build pass. -/
theorem phase1_inv (norm : List Char → List Char) (docs : List Document) :
    TMInv (fun t => ∃ d ∈ docs, t ∈ docTerms norm d) (docs.map Document.name)
      (phase1 norm docs) := by
  refine foldDocs_inv norm _ _ docs [] ?_ ?_
  · intro d hd
    exact ⟨List.mem_map_of_mem _ hd, fun w hw => ⟨d, hd, hw⟩⟩
  · constructor <;> simp

theorem mem_finalize (dc : Nat) (tm : List (Term × TermFreq)) (p : Term × TermFreq)
    (hp : p ∈ finalize dc tm) :
    ∃ p0 ∈ tm, p.1 = p0.1 ∧
      p.2 = TermFreq.mk ((dc : ℝ) / (p0.2.tfMap.length : ℝ)) p0.2.tfMap ∧
      ¬ (1 / ((dc : ℝ) / (p0.2.tfMap.length : ℝ)) ≥ maxThreshold dc) := by
  simp only [finalize, List.mem_filter, List.mem_map] at hp
  obtain ⟨⟨p0, hp0, heq⟩, hpred⟩ := hp
  rw [Prod.ext_iff] at heq
  simp only at heq
  obtain ⟨ht, he⟩ := heq
  refine ⟨p0, hp0, ht.symm, he.symm, ?_⟩
  have hd := of_decide_eq_true hpred
  rw [← he] at hd
  simpa using hd

theorem nodup_subset_length_le {α : Type} [DecidableEq α] (l1 l2 : List α)
    (h1 : l1.Nodup) (hs : l1 ⊆ l2) : l1.length ≤ l2.length := by
  calc l1.length = l1.toFinset.card := (List.toFinset_card_of_nodup h1).symm
  _ ≤ l2.toFinset.card :=
      Finset.card_le_card (fun x hx => List.mem_toFinset.2 (hs (List.mem_toFinset.1 hx)))
  _ ≤ l2.length := List.toFinset_card_le l2

/-- C4: every entry of a built term table stores idf equal to the document
count divided by the number of documents containing the term, this idf is at
least 1, and the entry's term-frequency map is nonempty with distinct keys
drawn from the corpus document names. -/
theorem c4_term_table_invariants (docs : List Document)
    (hnd : (docs.map Document.name).Nodup) :
    ∀ p ∈ (buildIndex docs).tMap,
      p.2.idf = (docs.length : ℝ) / (p.2.tfMap.length : ℝ) ∧
      1 ≤ p.2.idf ∧
      p.2.tfMap ≠ [] ∧
      (p.2.tfMap.map Prod.fst).Nodup ∧
      ∀ q ∈ p.2.tfMap, q.1 ∈ docs.map Document.name := by
  intro p hp
  have hinv := phase1_inv defaultNormalizer docs
  obtain ⟨p0, hp0, _, he, _⟩ :=
    mem_finalize docs.length (phase1 defaultNormalizer docs) p (by simpa [buildIndex] using hp)
  have hne := hinv.tfNonempty p0 hp0
  have hnodup := hinv.tfKeysNodup p0 hp0
  have hnames := hinv.tfNames p0 hp0
  have hsub : p0.2.tfMap.map Prod.fst ⊆ docs.map Document.name := by
    intro a ha
    obtain ⟨q, hq, rfl⟩ := List.mem_map.mp ha
    exact hnames q hq
  have hlen_le : p0.2.tfMap.length ≤ docs.length := by
    have h1 := nodup_subset_length_le _ _ hnodup hsub
    simpa using h1
  have hlen_pos : 0 < p0.2.tfMap.length := List.length_pos.mpr hne
  rw [he]
  refine ⟨by simp, ?_, by simpa using hne, by simpa using hnodup, ?_⟩
  · show (1 : ℝ) ≤ (TermFreq.mk ((docs.length : ℝ) / (p0.2.tfMap.length : ℝ)) p0.2.tfMap).idf
    simp only
    rw [one_le_div (by exact_mod_cast hlen_pos)]
    exact_mod_cast hlen_le
  · simpa using hnames

theorem c4_term_table_invariants_witness :
    ([(⟨"a", ['x'], 1⟩ : Document), ⟨"b", ['y'], 1⟩].map Document.name).Nodup ∧
    ∀ p ∈ (buildIndex [(⟨"a", ['x'], 1⟩ : Document), ⟨"b", ['y'], 1⟩]).tMap,
      p.2.idf = (([(⟨"a", ['x'], 1⟩ : Document), ⟨"b", ['y'], 1⟩].length : ℝ) / (p.2.tfMap.length : ℝ)) ∧
      1 ≤ p.2.idf ∧
      p.2.tfMap ≠ [] ∧
      (p.2.tfMap.map Prod.fst).Nodup ∧
      ∀ q ∈ p.2.tfMap, q.1 ∈ [(⟨"a", ['x'], 1⟩ : Document), ⟨"b", ['y'], 1⟩].map Document.name :=
  ⟨by decide, c4_term_table_invariants _ (by decide)⟩

theorem char_ofNat_toNat (n : Nat) (h : n.isValidChar) : (Char.ofNat n).toNat = n := by
  unfold Char.ofNat
  rw [dif_pos h]
  unfold Char.ofNatAux Char.toNat
  show (UInt32.toNat _) = n
  unfold UInt32.toNat
  show (BitVec.ofNatLt n _).toNat = n
  exact BitVec.toNat_ofNatLt n _

theorem char_toLower_idem (c : Char) : Char.toLower (Char.toLower c) = Char.toLower c := by
  unfold Char.toLower
  by_cases h : c.toNat ≥ 65 ∧ c.toNat ≤ 90
  · rw [if_pos h]
    have hv : (c.toNat + 32).isValidChar := Or.inl (by omega)
    rw [char_ofNat_toNat _ hv]
    rw [if_neg (by omega)]
  · rw [if_neg h, if_neg h]

/-- Every character produced by DefaultNormalizer is fixed by toLower. -/
theorem defaultNormalizer_lower (s : List Char) :
    ∀ c ∈ defaultNormalizer s, Char.toLower c = c := by
  intro c hc
  simp only [defaultNormalizer, List.mem_filter, List.mem_map] at hc
  obtain ⟨⟨c0, _, rfl⟩, _⟩ := hc
  exact char_toLower_idem c0

theorem fieldsAux_chars (s : List Char) :
    ∀ acc, ∀ w ∈ fieldsAux s acc, ∀ c ∈ w, c ∈ s ∨ c ∈ acc := by
  induction s with
  | nil =>
    intro acc w hw c hc
    by_cases h : acc = [] <;> simp [fieldsAux, h] at hw
    subst hw
    exact Or.inr (List.mem_reverse.mp hc)
  | cons a rest ih =>
    intro acc w hw c hc
    by_cases hws : a.isWhitespace
    · by_cases h : acc = []
      · rw [show fieldsAux (a :: rest) acc = fieldsAux rest [] by simp [fieldsAux, hws, h]] at hw
        rcases ih [] w hw c hc with h1 | h1
        · exact Or.inl (List.mem_cons_of_mem _ h1)
        · simp at h1
      · rw [show fieldsAux (a :: rest) acc = acc.reverse :: fieldsAux rest [] by
              simp [fieldsAux, hws, h]] at hw
        rcases List.mem_cons.mp hw with h1 | h1
        · subst h1
          exact Or.inr (List.mem_reverse.mp hc)
        · rcases ih [] w h1 c hc with h2 | h2
          · exact Or.inl (List.mem_cons_of_mem _ h2)
          · simp at h2
    · rw [show fieldsAux (a :: rest) acc = fieldsAux rest (a :: acc) by
            simp [fieldsAux, hws]] at hw
      rcases ih (a :: acc) w hw c hc with h1 | h1
      · exact Or.inl (List.mem_cons_of_mem _ h1)
      · rcases List.mem_cons.mp h1 with h2 | h2
        · exact Or.inl (h2 ▸ List.mem_cons_self _ _)
        · exact Or.inr h2

/-- Characters of the words of fields s come from s. -/
theorem fields_chars (s : List Char) : ∀ w ∈ fields s, ∀ c ∈ w, c ∈ s := by
  intro w hw c hc
  rcases fieldsAux_chars s [] w hw c hc with h | h
  · exact h
  · simp at h

theorem joinSpace_chars (ws : List Term) :
    ∀ c ∈ joinSpace ws, (∃ w ∈ ws, c ∈ w) ∨ c = ' ' := by
  induction ws with
  | nil => intro c hc; simp [joinSpace] at hc
  | cons w ws ih =>
    intro c hc
    cases ws with
    | nil =>
      exact Or.inl ⟨w, List.mem_cons_self _ _, hc⟩
    | cons w2 ws2 =>
      rw [show joinSpace (w :: w2 :: ws2) = w ++ ' ' :: joinSpace (w2 :: ws2) from rfl] at hc
      rcases List.mem_append.mp hc with h1 | h1
      · exact Or.inl ⟨w, List.mem_cons_self _ _, h1⟩
      · rcases List.mem_cons.mp h1 with h2 | h2
        · exact Or.inr h2
        · rcases ih c h2 with ⟨w3, hw3, hc3⟩ | h3
          · exact Or.inl ⟨w3, List.mem_cons_of_mem _ hw3, hc3⟩
          · exact Or.inr h3

theorem ngrams_chars (words : List Term) (n : Nat) :
    ∀ t ∈ ngrams words n, ∀ c ∈ t, (∃ w ∈ words, c ∈ w) ∨ c = ' ' := by
  intro t ht c hc
  unfold ngrams at ht
  split at ht
  · exact Or.inl ⟨t, ht, hc⟩
  · obtain ⟨i, _, rfl⟩ := List.mem_map.mp ht
    rcases joinSpace_chars _ c hc with ⟨w, hw, hcw⟩ | h
    · exact Or.inl ⟨w, List.mem_of_mem_drop (List.mem_of_mem_take hw), hcw⟩
    · exact Or.inr h

/-- Every term a document contributes to the index is fixed by ToLower:
words come from DefaultNormalizer output, n-grams add only spaces. -/
theorem docTerms_lower (d : Document) :
    ∀ t ∈ docTerms defaultNormalizer d, lowerTerm t = t := by
  intro t ht
  have hchars : ∀ c ∈ t, Char.toLower c = c := by
    intro c hc
    have hword : ∀ w ∈ fields (defaultNormalizer d.content), ∀ c' ∈ w, Char.toLower c' = c' :=
      fun w hw c' hc' => defaultNormalizer_lower _ c' (fields_chars _ w hw c' hc')
    simp only [docTerms, buildNGrams, List.append_assoc, List.mem_append] at ht
    rcases ht with h1 | h1 | h1
    · exact hword t h1 c hc
    · rcases ngrams_chars _ 2 t h1 c hc with ⟨w, hw, hcw⟩ | h2
      · exact hword w hw c hcw
      · subst h2; decide
    · rcases ngrams_chars _ 3 t h1 c hc with ⟨w, hw, hcw⟩ | h2
      · exact hword w hw c hcw
      · subst h2; decide
  show t.map Char.toLower = t
  calc t.map Char.toLower = t.map id := List.map_congr_left hchars
  _ = t := List.map_id t

/-- Every key of a built index's term table is fixed by ToLower. -/
theorem builtIndex_keys_lower (docs : List Document) :
    ∀ p ∈ (buildIndex docs).tMap, lowerTerm p.1 = p.1 := by
  intro p hp
  obtain ⟨p0, hp0, ht, _, _⟩ :=
    mem_finalize docs.length (phase1 defaultNormalizer docs) p (by simpa [buildIndex] using hp)
  obtain ⟨d, _, hw⟩ := (phase1_inv defaultNormalizer docs).keyOK p0 hp0
  rw [ht]
  exact docTerms_lower d p0.1 hw

theorem lookupTermFreq_cases (idx : Index) (t : Term) :
    (∃ p ∈ idx.tMap, p.1 = t ∧ lookupTermFreq idx t = p.2) ∨
    ((∀ p ∈ idx.tMap, p.1 ≠ t) ∧ lookupTermFreq idx t = ⟨0, []⟩) := by
  unfold lookupTermFreq
  cases hf : idx.tMap.find? (fun p => p.1 == t) with
  | none =>
    refine Or.inr ⟨?_, rfl⟩
    intro p hp
    have := List.find?_eq_none.mp hf p hp
    simpa using this
  | some p =>
    refine Or.inl ⟨p, List.mem_of_find?_eq_some hf, ?_, rfl⟩
    have := List.find?_some hf
    simpa using this

/-- Surviving the pruning pass forces idf strictly above 1. -/
theorem built_idf_gt_one (docs : List Document) :
    ∀ p ∈ (buildIndex docs).tMap, 1 < p.2.idf := by
  intro p hp
  have hinv := phase1_inv defaultNormalizer docs
  obtain ⟨p0, hp0, _, he, hsur⟩ :=
    mem_finalize docs.length (phase1 defaultNormalizer docs) p (by simpa [buildIndex] using hp)
  obtain ⟨d, hd, _⟩ := hinv.keyOK p0 hp0
  have hdc : 1 ≤ docs.length := List.length_pos.mpr (List.ne_nil_of_mem hd)
  have hn : 0 < p0.2.tfMap.length := List.length_pos.mpr (hinv.tfNonempty p0 hp0)
  have hidf_pos : 0 < (docs.length : ℝ) / (p0.2.tfMap.length : ℝ) := by
    apply div_pos <;> [exact_mod_cast hdc; exact_mod_cast hn]
  have hlt : 1 / ((docs.length : ℝ) / (p0.2.tfMap.length : ℝ)) < maxThreshold docs.length :=
    lt_of_not_ge hsur
  have hlt1 : 1 / ((docs.length : ℝ) / (p0.2.tfMap.length : ℝ)) < 1 :=
    lt_of_lt_of_le hlt (maxThreshold_le_one _)
  rw [he]
  show 1 < (TermFreq.mk ((docs.length : ℝ) / (p0.2.tfMap.length : ℝ)) p0.2.tfMap).idf
  simp only
  by_contra hle
  push_neg at hle
  have : 1 ≤ 1 / ((docs.length : ℝ) / (p0.2.tfMap.length : ℝ)) := by
    rw [le_div_iff hidf_pos]
    simpa using hle
  linarith

/-- Term frequencies stored by a built index are nonnegative. -/
theorem built_tf_nonneg (docs : List Document) :
    ∀ p ∈ (buildIndex docs).tMap, ∀ q ∈ p.2.tfMap, 0 ≤ q.2 := by
  intro p hp q hq
  have hinv := phase1_inv defaultNormalizer docs
  obtain ⟨p0, hp0, _, he, _⟩ :=
    mem_finalize docs.length (phase1 defaultNormalizer docs) p (by simpa [buildIndex] using hp)
  rw [he] at hq
  exact hinv.tfNonneg p0 hp0 q hq

/-- The idf read out of a built index is always at least 1. -/
theorem built_one_le_idf (docs : List Document) (t : Term) :
    1 ≤ idf (buildIndex docs) t := by
  unfold idf
  rcases lookupTermFreq_cases (buildIndex docs) t with ⟨p, hp, _, he⟩ | ⟨_, he⟩
  · rw [he]
    have h1 := built_idf_gt_one docs p hp
    rw [if_neg (by linarith)]
    linarith
  · rw [he]
    simp

/-- If the idf read out of a built index differs from 1, the term is a key
of the table (with that idf). -/
theorem built_idf_ne_one (docs : List Document) (t : Term)
    (h : idf (buildIndex docs) t ≠ 1) :
    ∃ p ∈ (buildIndex docs).tMap, p.1 = t ∧ idf (buildIndex docs) t = p.2.idf := by
  rcases lookupTermFreq_cases (buildIndex docs) t with ⟨p, hp, ht, he⟩ | ⟨_, he⟩
  · refine ⟨p, hp, ht, ?_⟩
    unfold idf
    rw [he]
    have h1 := built_idf_gt_one docs p hp
    rw [if_neg (by linarith)]
  · exfalso
    apply h
    unfold idf
    rw [he]
    simp

/-- A nonzero stored term frequency means the name is a key of the term's
tfMap. -/
theorem tfVal_ne_zero (idx : Index) (t : Term) (nm : String)
    (h : tfVal idx t nm ≠ 0) :
    ∃ q ∈ (lookupTermFreq idx t).tfMap, q.1 = nm ∧ tfVal idx t nm = q.2 := by
  unfold tfVal at h ⊢
  cases hf : (lookupTermFreq idx t).tfMap.find? (fun q => q.1 == nm) with
  | none => rw [hf] at h; simp at h
  | some q =>
    refine ⟨q, List.mem_of_find?_eq_some hf, ?_, rfl⟩
    have := List.find?_some hf
    simpa using this

/-- tfNorm is strictly positive on every index. -/
theorem tfNorm_pos (idx : Index) (t : Term) : 0 < tfNorm idx t := by
  unfold tfNorm
  set s := ((lookupTermFreq idx t).tfMap.map
    (fun q => (Real.log (lookupTermFreq idx t).idf * q.2) *
      (Real.log (lookupTermFreq idx t).idf * q.2))).sum with hs
  have hnn : 0 ≤ s := by
    rw [hs]
    apply List.sum_nonneg
    intro x hx
    obtain ⟨q, _, rfl⟩ := List.mem_map.mp hx
    exact mul_self_nonneg _
  by_cases h : s = 0
  · rw [if_pos h]; norm_num
  · rw [if_neg h]
    exact Real.sqrt_pos.mpr (lt_of_le_of_ne hnn (fun hh => h hh.symm))

/-- The tf read by tfVal on a built index is nonnegative. -/
theorem built_tfVal_nonneg (docs : List Document) (t : Term) (nm : String) :
    0 ≤ tfVal (buildIndex docs) t nm := by
  by_cases h : tfVal (buildIndex docs) t nm = 0
  · rw [h]
  · obtain ⟨q, hq, _, he⟩ := tfVal_ne_zero _ _ _ h
    rcases lookupTermFreq_cases (buildIndex docs) t with ⟨p, hp, _, he2⟩ | ⟨_, he2⟩
    · rw [he]
      exact built_tf_nonneg docs p hp q (by rw [← he2]; exact hq)
    · rw [he2] at hq
      simp at hq

theorem absent_lookup (idx : Index) (t : Term) (h : ∀ p ∈ idx.tMap, p.1 ≠ t) :
    lookupTermFreq idx t = ⟨0, []⟩ := by
  rcases lookupTermFreq_cases idx t with ⟨p, hp, ht, _⟩ | ⟨_, he⟩
  · exact absurd ht (h p hp)
  · exact he

theorem absent_idf (idx : Index) (t : Term) (h : ∀ p ∈ idx.tMap, p.1 ≠ t) :
    idf idx t = 1 := by
  unfold idf
  rw [absent_lookup idx t h]
  simp

theorem absent_tfVal (idx : Index) (t : Term) (nm : String) (h : ∀ p ∈ idx.tMap, p.1 ≠ t) :
    tfVal idx t nm = 0 := by
  unfold tfVal
  rw [absent_lookup idx t h]
  simp

theorem absent_tfNorm (idx : Index) (t : Term) (h : ∀ p ∈ idx.tMap, p.1 ≠ t) :
    tfNorm idx t = 1 := by
  unfold tfNorm
  rw [absent_lookup idx t h]
  simp

/-- On a built index one scoring step behaves as if the term were not
lowercased: for lowercase-fixed terms the two agree definitionally, and a
term changed by lowercasing is absent from the table, so it contributes a
zero weight either way. -/
theorem scoreStep_eq (docs : List Document) (docName : String) (acc : ℝ × ℝ) (t : Term) :
    scoreStep (buildIndex docs) docName acc t =
      if 0 < tfLogIdf (buildIndex docs) t docName then
        (acc.1 + Real.log (idf (buildIndex docs) t) *
          Real.log (tfLogIdf (buildIndex docs) t docName),
         acc.2 + Real.log (idf (buildIndex docs) t))
      else acc := by
  by_cases hl : lowerTerm t = t
  · unfold scoreStep
    rw [hl]
  · have habs : ∀ p ∈ (buildIndex docs).tMap, p.1 ≠ t := by
      intro p hp he
      exact hl (he ▸ builtIndex_keys_lower docs p hp)
    have hidf : idf (buildIndex docs) t = 1 := absent_idf _ _ habs
    have htf : tfVal (buildIndex docs) t docName = 0 := absent_tfVal _ _ _ habs
    have htfl : tfLogIdf (buildIndex docs) t docName = 0 := by
      unfold tfLogIdf
      rw [htf]
      ring
    rw [htfl, if_neg (lt_irrefl 0)]
    unfold scoreStep
    rw [hidf]
    show (if 0 < tfLogIdf (buildIndex docs) (lowerTerm t) docName then
      (acc.1 + Real.log 1 * Real.log (tfLogIdf (buildIndex docs) (lowerTerm t) docName),
       acc.2 + Real.log 1) else acc) = acc
    split
    · simp
    · rfl

/-- The weighted sum of the n-gram-expanded query terms with positive
tfLogIdf, as written in the specification of docScore. -/
noncomputable def specWS (idx : Index) (terms : List Term) (docName : String) : ℝ :=
  (((buildNGrams terms).filter (fun t => decide (0 < tfLogIdf idx t docName))).map
    (fun t => Real.log (idf idx t) * Real.log (tfLogIdf idx t docName))).sum

/-- The weight total of the n-gram-expanded query terms with positive
tfLogIdf, as written in the specification of docScore. -/
noncomputable def specWT (idx : Index) (terms : List Term) (docName : String) : ℝ :=
  (((buildNGrams terms).filter (fun t => decide (0 < tfLogIdf idx t docName))).map
    (fun t => Real.log (idf idx t))).sum

theorem foldScore_eq (docs : List Document) (docName : String) :
    ∀ (l : List Term) (acc : ℝ × ℝ),
      l.foldl (scoreStep (buildIndex docs) docName) acc =
        (acc.1 + ((l.filter (fun t => decide (0 < tfLogIdf (buildIndex docs) t docName))).map
            (fun t => Real.log (idf (buildIndex docs) t) *
              Real.log (tfLogIdf (buildIndex docs) t docName))).sum,
         acc.2 + ((l.filter (fun t => decide (0 < tfLogIdf (buildIndex docs) t docName))).map
            (fun t => Real.log (idf (buildIndex docs) t))).sum) := by
  intro l
  induction l with
  | nil => intro acc; simp
  | cons t l ih =>
    intro acc
    rw [List.foldl_cons, scoreStep_eq, ih]
    by_cases h : 0 < tfLogIdf (buildIndex docs) t docName
    · rw [if_pos h, List.filter_cons_of_pos (by simpa using h)]
      simp only [List.map_cons, List.sum_cons]
      refine Prod.ext ?_ ?_ <;> simp <;> ring
    · rw [if_neg h, List.filter_cons_of_neg (by simpa using h)]

/-- C5: on a built index, docScore is exactly the specified weighted
geometric mean: exp(weightedSum/weightTotal) over the n-gram-expanded query
terms with positive tfLogIdf (weights ln idf), 0 when the weight total is 0;
and tfLogIdf is tf * ln(idf) / tfNorm. -/
theorem c5_docScore_weighted_geometric_mean (docs : List Document) (terms : List Term)
    (doc : Document) :
    (docScore (buildIndex docs) terms doc).score =
      (if specWT (buildIndex docs) terms doc.name = 0 then 0
       else Real.exp (specWS (buildIndex docs) terms doc.name /
         specWT (buildIndex docs) terms doc.name)) ∧
    (∀ (t : Term) (nm : String), tfLogIdf (buildIndex docs) t nm =
      tfVal (buildIndex docs) t nm * Real.log (idf (buildIndex docs) t) /
        tfNorm (buildIndex docs) t) := by
  constructor
  · have hacc := foldScore_eq docs doc.name (buildNGrams terms) (0, 0)
    simp only [docScore, hacc, zero_add, specWS, specWT]
  · intro t nm
    rfl

theorem getD_mem (l : List SearchResult) (n : Nat) (h : n < l.length) :
    l.getD n dummyResult ∈ l := by
  rw [List.getD_eq_getElem l dummyResult h]
  exact List.getElem_mem h

theorem hswap_length (l : List SearchResult) (i j : Nat) :
    (hswap l i j).length = l.length := by
  unfold hswap
  simp

theorem hswap_subset (l : List SearchResult) (i j : Nat) (hi : i < l.length)
    (hj : j < l.length) : ∀ x ∈ hswap l i j, x ∈ l := by
  intro x hx
  unfold hswap at hx
  rcases List.mem_or_eq_of_mem_set hx with hx1 | hx1
  · rcases List.mem_or_eq_of_mem_set hx1 with hx2 | hx2
    · exact hx2
    · exact hx2 ▸ getD_mem l j hj
  · exact hx1 ▸ getD_mem l i hi

theorem upHeap_length (l : List SearchResult) (j : Nat) :
    (upHeap l j).length = l.length := by
  induction j using Nat.strong_induction_on generalizing l with
  | _ j ih =>
    match j with
    | 0 => rw [upHeap]
    | j' + 1 =>
      rw [upHeap]
      split
      · rw [ih (j' / 2) (by omega), hswap_length]
      · rfl

theorem upHeap_subset (l : List SearchResult) (j : Nat) (hj : j < l.length) :
    ∀ x ∈ upHeap l j, x ∈ l := by
  induction j using Nat.strong_induction_on generalizing l with
  | _ j ih =>
    match j with
    | 0 => intro x hx; rw [upHeap] at hx; exact hx
    | j' + 1 =>
      intro x hx
      rw [upHeap] at hx
      split at hx
      · have h2 : j' / 2 < (hswap l (j' / 2) (j' + 1)).length := by
          rw [hswap_length]; omega
        exact hswap_subset l (j' / 2) (j' + 1) (by omega) hj x
          (ih (j' / 2) (by omega) _ h2 x hx)
      · exact hx

theorem downHeap_length_aux :
    ∀ (k : Nat) (l : List SearchResult) (i n : Nat), n - i = k →
      (downHeap l i n).length = l.length := by
  intro k
  induction k using Nat.strong_induction_on with
  | _ k ih =>
    intro l i n hk
    rw [downHeap]
    split
    next hj =>
      have h1 := heapChild_lt l i n hj
      have h2 := lt_heapChild l i n
      split
      · rw [ih (n - heapChild l i n) (by omega) _ _ n rfl, hswap_length]
      · rfl
    next => rfl

theorem downHeap_length (l : List SearchResult) (i n : Nat) :
    (downHeap l i n).length = l.length :=
  downHeap_length_aux (n - i) l i n rfl

theorem downHeap_subset_aux :
    ∀ (k : Nat) (l : List SearchResult) (i n : Nat), n - i = k → i < l.length →
      n ≤ l.length → ∀ x ∈ downHeap l i n, x ∈ l := by
  intro k
  induction k using Nat.strong_induction_on with
  | _ k ih =>
    intro l i n hk hi hn x hx
    rw [downHeap] at hx
    split at hx
    next hj =>
      have h1 := heapChild_lt l i n hj
      have h2 := lt_heapChild l i n
      split at hx
      · have hrec := ih (n - heapChild l i n) (by omega) _ (heapChild l i n) n rfl
          (by rw [hswap_length]; omega) (by rw [hswap_length]; omega) x hx
        exact hswap_subset l i (heapChild l i n) hi (by omega) x hrec
      · exact hx
    next => exact hx

theorem downHeap_subset (l : List SearchResult) (i n : Nat) (hi : i < l.length)
    (hn : n ≤ l.length) : ∀ x ∈ downHeap l i n, x ∈ l :=
  downHeap_subset_aux (n - i) l i n rfl hi hn

theorem heapPush_length (l : List SearchResult) (x : SearchResult) :
    (heapPush l x).length = l.length + 1 := by
  unfold heapPush
  rw [upHeap_length]
  simp

theorem heapPush_subset (l : List SearchResult) (x : SearchResult) :
    ∀ y ∈ heapPush l x, y ∈ l ∨ y = x := by
  intro y hy
  unfold heapPush at hy
  have h1 := upHeap_subset (l ++ [x]) ((l ++ [x]).length - 1) (by simp) y hy
  rcases List.mem_append.mp h1 with h2 | h2
  · exact Or.inl h2
  · exact Or.inr (by simpa using h2)

theorem getLastD_mem (l : List SearchResult) (hl : l ≠ []) :
    l.getLastD dummyResult ∈ l := by
  rw [List.getLastD_eq_getLast?, List.getLast?_eq_getLast l hl]
  simp only [Option.getD_some]
  exact List.getLast_mem hl

theorem heapPop_fst_mem (l : List SearchResult) (hl : l ≠ []) : (heapPop l).1 ∈ l := by
  unfold heapPop
  simp only
  have hlen : (downHeap (hswap l 0 (l.length - 1)) 0 (l.length - 1)).length = l.length := by
    rw [downHeap_length, hswap_length]
  have hpos : 0 < l.length := List.length_pos.mpr hl
  have hne : downHeap (hswap l 0 (l.length - 1)) 0 (l.length - 1) ≠ [] := by
    intro h
    rw [h] at hlen
    simp at hlen
    omega
  have h1 := getLastD_mem _ hne
  have h2 := downHeap_subset (hswap l 0 (l.length - 1)) 0 (l.length - 1)
    (by rw [hswap_length]; omega) (by rw [hswap_length]; omega) _ h1
  exact hswap_subset l 0 (l.length - 1) (by omega) (by omega) _ h2

theorem heapPop_snd_subset (l : List SearchResult) (hl : l ≠ []) :
    ∀ x ∈ (heapPop l).2, x ∈ l := by
  intro x hx
  unfold heapPop at hx
  simp only at hx
  have hpos : 0 < l.length := List.length_pos.mpr hl
  have h1 := List.dropLast_subset _ hx
  have h2 := downHeap_subset (hswap l 0 (l.length - 1)) 0 (l.length - 1)
    (by rw [hswap_length]; omega) (by rw [hswap_length]; omega) _ h1
  exact hswap_subset l 0 (l.length - 1) (by omega) (by omega) _ h2

theorem heapPop_snd_length (l : List SearchResult) :
    (heapPop l).2.length = l.length - 1 := by
  unfold heapPop
  simp only
  rw [List.length_dropLast, downHeap_length, hswap_length]

theorem searchStep_pos (idx : Index) (terms : List Term) (limit : ℤ) (nm : String)
    (results h : List SearchResult)
    (hr : ∀ x ∈ results, 0 < x.score) (hh : ∀ x ∈ h, 0 < x.score)
    (r2 h2 : List SearchResult) (heq : searchStep idx terms limit nm results h = some (r2, h2)) :
    (∀ x ∈ r2, 0 < x.score) ∧ (∀ x ∈ h2, 0 < x.score) := by
  simp only [searchStep] at heq
  generalize docScore idx terms (docLookup idx nm) = sr at heq
  split at heq
  next hpos =>
    have hres1 : ∀ x ∈ results ++ [sr], 0 < x.score := by
      intro x hx
      rcases List.mem_append.mp hx with h1 | h1
      · exact hr x h1
      · simp only [List.mem_singleton] at h1
        exact h1 ▸ hpos
    split at heq
    next =>
      obtain ⟨e1, e2⟩ := Prod.mk.injEq .. ▸ Option.some.injEq .. ▸ heq
      refine ⟨e1 ▸ hres1, e2 ▸ ?_⟩
      intro x hx
      rcases heapPush_subset h sr x hx with h1 | h1
      · exact hh x h1
      · exact h1 ▸ hpos
    next =>
      split at heq
      next => exact absurd heq (by simp)
      next =>
        split at heq
        next =>
          obtain ⟨e1, e2⟩ := Prod.mk.injEq .. ▸ Option.some.injEq .. ▸ heq
          refine ⟨e1 ▸ hres1, e2 ▸ ?_⟩
          intro x hx
          rcases heapPush_subset _ sr x hx with h1 | h1
          · exact hh x (heapPop_snd_subset _ (by simp) x h1)
          · exact h1 ▸ hpos
        next =>
          obtain ⟨e1, e2⟩ := Prod.mk.injEq .. ▸ Option.some.injEq .. ▸ heq
          exact ⟨e1 ▸ hres1, e2 ▸ hh⟩
  next =>
    obtain ⟨e1, e2⟩ := Prod.mk.injEq .. ▸ Option.some.injEq .. ▸ heq
    exact ⟨e1 ▸ hr, e2 ▸ hh⟩

theorem searchLoop_pos (idx : Index) (terms : List Term) (limit : ℤ) :
    ∀ (cands : List String) (results h : List SearchResult),
      (∀ x ∈ results, 0 < x.score) → (∀ x ∈ h, 0 < x.score) →
      ∀ res hp, searchLoop idx terms limit cands results h = some (res, hp) →
        (∀ x ∈ res, 0 < x.score) ∧ (∀ x ∈ hp, 0 < x.score) := by
  intro cands
  induction cands with
  | nil =>
    intro results h hr hh res hp heq
    rw [searchLoop] at heq
    obtain ⟨h1, h2⟩ := Prod.mk.injEq .. ▸ Option.some.injEq .. ▸ heq
    exact ⟨h1 ▸ hr, h2 ▸ hh⟩
  | cons nm rest ih =>
    intro results h hr hh res hp heq
    rw [searchLoop] at heq
    cases hst : searchStep idx terms limit nm results h with
    | none => rw [hst] at heq; simp at heq
    | some rh =>
      rw [hst] at heq
      obtain ⟨r2, h2⟩ := rh
      obtain ⟨p1, p2⟩ := searchStep_pos idx terms limit nm results h hr hh r2 h2 hst
      exact ih r2 h2 p1 p2 res hp heq

theorem drainLoop_pos :
    ∀ (n : Nat) (results h : List SearchResult), n = h.length →
      (∀ x ∈ results, 0 < x.score) → (∀ x ∈ h, 0 < x.score) →
      ∀ x ∈ drainLoop results h n, 0 < x.score := by
  intro n
  induction n with
  | zero =>
    intro results h _ hr _ x hx
    rw [drainLoop] at hx
    exact hr x hx
  | succ i ih =>
    intro results h hn hr hh x hx
    rw [drainLoop] at hx
    have hne : h ≠ [] := by
      intro he
      rw [he] at hn
      simp at hn
    refine ih _ _ (by rw [heapPop_snd_length]; omega) ?_ ?_ x hx
    · intro y hy
      rcases List.mem_or_eq_of_mem_set hy with h1 | h1
      · exact hr y h1
      · exact h1 ▸ hh _ (heapPop_fst_mem h hne)
    · intro y hy
      exact hh y (heapPop_snd_subset h hne y hy)

/-- Every result returned by search has strictly positive score. -/
theorem search_results_pos (idx : Index) (terms : List Term) (limit : ℤ) :
    ∀ res, search idx terms limit = some res → ∀ x ∈ res, 0 < x.score := by
  intro res heq x hx
  unfold search at heq
  split at heq
  next => simp at heq
  next =>
  cases hsl : searchLoop idx terms limit (candidateNames idx (buildNGrams terms)) [] [] with
  | none => rw [hsl] at heq; simp at heq
  | some rp =>
    rw [hsl] at heq
    obtain ⟨results, h⟩ := rp
    simp only [Option.some.injEq] at heq
    obtain ⟨hres, hheap⟩ := searchLoop_pos idx terms limit _ [] [] (by simp) (by simp)
      results h hsl
    exact drainLoop_pos h.length results h rfl hres hheap x (heq ▸ hx)

theorem built_pos_tfLogIdf_log_pos (docs : List Document) (t : Term) (nm : String)
    (h : 0 < tfLogIdf (buildIndex docs) t nm) :
    0 < Real.log (idf (buildIndex docs) t) := by
  have hnn : 0 ≤ Real.log (idf (buildIndex docs) t) :=
    Real.log_nonneg (built_one_le_idf docs t)
  rcases lt_or_eq_of_le hnn with hpos | hzero
  · exact hpos
  · exfalso
    unfold tfLogIdf at h
    rw [← hzero] at h
    simp at h

/-- C6: on a built index a document's score is nonnegative, it is zero
exactly when no n-gram-expanded query term has strictly positive tfLogIdf
for the document, and a zero-scoring document never appears among search's
results. -/
theorem c6_zero_score_excluded (docs : List Document) (terms : List Term) (limit : ℤ)
    (doc : Document) :
    0 ≤ (docScore (buildIndex docs) terms doc).score ∧
    ((docScore (buildIndex docs) terms doc).score = 0 ↔
      ¬ ∃ t ∈ buildNGrams terms, 0 < tfLogIdf (buildIndex docs) t doc.name) ∧
    (∀ res, search (buildIndex docs) terms limit = some res →
      ∀ sr ∈ res, 0 < sr.score) := by
  have hacc := foldScore_eq docs doc.name (buildNGrams terms) (0, 0)
  have hscore : (docScore (buildIndex docs) terms doc).score =
      (if specWT (buildIndex docs) terms doc.name = 0 then 0
       else Real.exp (specWS (buildIndex docs) terms doc.name /
         specWT (buildIndex docs) terms doc.name)) := by
    simp only [docScore, hacc, zero_add, specWS, specWT]
  refine ⟨?_, ?_, ?_⟩
  · rw [hscore]
    split
    · exact le_refl 0
    · exact le_of_lt (Real.exp_pos _)
  · rw [hscore]
    constructor
    · intro hz hex
      obtain ⟨t0, ht0, hpos⟩ := hex
      have hmem : Real.log (idf (buildIndex docs) t0) ∈
          (((buildNGrams terms).filter
            (fun t => decide (0 < tfLogIdf (buildIndex docs) t doc.name))).map
            (fun t => Real.log (idf (buildIndex docs) t))) := by
        apply List.mem_map_of_mem
        rw [List.mem_filter]
        exact ⟨ht0, by simpa using hpos⟩
      have hnn : ∀ x ∈ (((buildNGrams terms).filter
          (fun t => decide (0 < tfLogIdf (buildIndex docs) t doc.name))).map
          (fun t => Real.log (idf (buildIndex docs) t))), 0 ≤ x := by
        intro x hx
        obtain ⟨t, _, rfl⟩ := List.mem_map.mp hx
        exact Real.log_nonneg (built_one_le_idf docs t)
      have hle := List.single_le_sum hnn _ hmem
      have hlog := built_pos_tfLogIdf_log_pos docs t0 doc.name hpos
      split at hz
      next hwt =>
        unfold specWT at hwt
        linarith
      next =>
        exact absurd hz (ne_of_gt (Real.exp_pos _))
    · intro hnex
      have hfil : (buildNGrams terms).filter
          (fun t => decide (0 < tfLogIdf (buildIndex docs) t doc.name)) = [] := by
        rw [List.filter_eq_nil]
        intro t ht
        simp only [decide_eq_true_eq]
        intro hpos
        exact hnex ⟨t, ht, hpos⟩
      rw [if_pos (by unfold specWT; rw [hfil]; simp)]
  · exact search_results_pos (buildIndex docs) terms limit

theorem c6_zero_score_excluded_witness :
    0 ≤ (docScore (buildIndex [(⟨"a", ['x'], 1⟩ : Document)]) [['x']] ⟨"a", ['x'], 1⟩).score ∧
    ((docScore (buildIndex [(⟨"a", ['x'], 1⟩ : Document)]) [['x']] ⟨"a", ['x'], 1⟩).score = 0 ↔
      ¬ ∃ t ∈ buildNGrams [['x']],
        0 < tfLogIdf (buildIndex [(⟨"a", ['x'], 1⟩ : Document)]) t
          (⟨"a", ['x'], 1⟩ : Document).name) ∧
    (∀ res, search (buildIndex [(⟨"a", ['x'], 1⟩ : Document)]) [['x']] 5 = some res →
      ∀ sr ∈ res, 0 < sr.score) :=
  c6_zero_score_excluded [(⟨"a", ['x'], 1⟩ : Document)] [['x']] 5 ⟨"a", ['x'], 1⟩

theorem finalize_keys_sublist (dc : Nat) (tm : List (Term × TermFreq)) :
    ((finalize dc tm).map Prod.fst).Sublist (tm.map Prod.fst) := by
  unfold finalize
  have h1 := (List.filter_sublist (l := tm.map
    (fun p => (p.1, TermFreq.mk ((dc : ℝ) / (p.2.tfMap.length : ℝ)) p.2.tfMap)))
    (p := fun p => decide (¬ (1 / p.2.idf ≥ maxThreshold dc)))).map Prod.fst
  have h2 : ((tm.map (fun p => (p.1,
      TermFreq.mk ((dc : ℝ) / (p.2.tfMap.length : ℝ)) p.2.tfMap))).map Prod.fst) =
      tm.map Prod.fst := by
    rw [List.map_map]
    rfl
  exact h2 ▸ h1

theorem built_keys_nodup (docs : List Document) :
    (((buildIndex docs).tMap).map Prod.fst).Nodup := by
  have h1 := (phase1_inv defaultNormalizer docs).tmKeysNodup
  have h2 := finalize_keys_sublist docs.length (phase1 defaultNormalizer docs)
  exact h1.sublist h2

theorem keys_nodup_unique (tm : List (Term × TermFreq)) (hnd : (tm.map Prod.fst).Nodup)
    (p p' : Term × TermFreq) (hp : p ∈ tm) (hp' : p' ∈ tm) (he : p.1 = p'.1) : p = p' := by
  induction tm with
  | nil => simp at hp
  | cons q tm ih =>
    simp only [List.map_cons, List.nodup_cons] at hnd
    rcases List.mem_cons.mp hp with h1 | h1 <;> rcases List.mem_cons.mp hp' with h2 | h2
    · rw [h1, h2]
    · exfalso
      apply hnd.1
      have : p'.1 ∈ tm.map Prod.fst := List.mem_map_of_mem Prod.fst h2
      rw [← he, h1] at this
      exact this
    · exfalso
      apply hnd.1
      have : p.1 ∈ tm.map Prod.fst := List.mem_map_of_mem Prod.fst h1
      rw [he, h2] at this
      exact this
    · exact ih hnd.2 h1 h2

theorem find?_eq_some_of_mem (tm : List (Term × TermFreq)) (hnd : (tm.map Prod.fst).Nodup)
    (p : Term × TermFreq) (hp : p ∈ tm) (t : Term) (ht : p.1 = t) :
    tm.find? (fun x => x.1 == t) = some p := by
  cases hf : tm.find? (fun x => x.1 == t) with
  | none =>
    exfalso
    have := List.find?_eq_none.mp hf p hp
    simp [ht] at this
  | some p' =>
    have h1 : p' ∈ tm := List.mem_of_find?_eq_some hf
    have h2 : p'.1 = t := by
      have := List.find?_some hf
      simpa using this
    rw [keys_nodup_unique tm hnd p p' hp h1 (by rw [ht, h2])]

theorem insertName_sub (cs : List String) (nm : String) : cs ⊆ insertName cs nm := by
  unfold insertName
  split
  · exact fun a h => h
  · exact fun a h => List.mem_append_left _ h

theorem mem_insertName (cs : List String) (nm : String) : nm ∈ insertName cs nm := by
  unfold insertName
  split
  next h => exact h
  next => simp

theorem innerFold_sub (m : List (String × ℝ)) :
    ∀ cs, cs ⊆ m.foldl (fun cs q => insertName cs q.1) cs := by
  induction m with
  | nil => intro cs a ha; simpa using ha
  | cons q m ih =>
    intro cs a ha
    rw [List.foldl_cons]
    exact ih _ (insertName_sub cs q.1 ha)

theorem innerFold_mem (m : List (String × ℝ)) (q : String × ℝ) (hq : q ∈ m) :
    ∀ cs, q.1 ∈ m.foldl (fun cs q => insertName cs q.1) cs := by
  induction m with
  | nil => simp at hq
  | cons q0 m ih =>
    intro cs
    rw [List.foldl_cons]
    rcases List.mem_cons.mp hq with h1 | h1
    · exact innerFold_sub m _ (h1 ▸ mem_insertName cs q0.1)
    · exact ih h1 _

theorem candFold_sub (idx : Index) :
    ∀ (l : List Term) (cs : List String),
      cs ⊆ l.foldl (fun cs t => match idx.tMap.find? (fun p => p.1 == t) with
        | some p => p.2.tfMap.foldl (fun cs q => insertName cs q.1) cs
        | none => cs) cs := by
  intro l
  induction l with
  | nil => intro cs a ha; simpa using ha
  | cons t l ih =>
    intro cs a ha
    rw [List.foldl_cons]
    apply ih
    cases hf : idx.tMap.find? (fun p => p.1 == t) with
    | none => simp only [hf]; exact ha
    | some p => simp only [hf]; exact innerFold_sub _ cs ha

theorem mem_candidateNames (idx : Index) (qts : List Term) (t : Term)
    (hnd : (idx.tMap.map Prod.fst).Nodup)
    (p : Term × TermFreq) (hp : p ∈ idx.tMap) (hpt : p.1 = t) (ht : t ∈ qts)
    (q : String × ℝ) (hq : q ∈ p.2.tfMap) :
    q.1 ∈ candidateNames idx qts := by
  obtain ⟨l1, l2, rfl⟩ := List.append_of_mem ht
  unfold candidateNames
  rw [List.foldl_append, List.foldl_cons]
  rw [find?_eq_some_of_mem idx.tMap hnd p hp t hpt]
  exact candFold_sub idx l2 _ (innerFold_mem p.2.tfMap q hq _)

/-- C8: restricting scoring to the candidate set does not change the result
set: on a built index, a positively scoring document is always a candidate,
and a document outside the candidate set scores 0 under docScore. -/
theorem c8_candidate_restriction (docs : List Document) (terms : List Term) (d : Document) :
    (0 < (docScore (buildIndex docs) terms d).score →
      d.name ∈ candidateNames (buildIndex docs) (buildNGrams terms)) ∧
    (d.name ∉ candidateNames (buildIndex docs) (buildNGrams terms) →
      (docScore (buildIndex docs) terms d).score = 0) := by
  have hacc := foldScore_eq docs d.name (buildNGrams terms) (0, 0)
  have hscore : (docScore (buildIndex docs) terms d).score =
      (if specWT (buildIndex docs) terms d.name = 0 then 0
       else Real.exp (specWS (buildIndex docs) terms d.name /
         specWT (buildIndex docs) terms d.name)) := by
    simp only [docScore, hacc, zero_add, specWS, specWT]
  have main : 0 < (docScore (buildIndex docs) terms d).score →
      d.name ∈ candidateNames (buildIndex docs) (buildNGrams terms) := by
    intro hpos
    rw [hscore] at hpos
    have hwt : specWT (buildIndex docs) terms d.name ≠ 0 := by
      intro h0
      rw [if_pos h0] at hpos
      exact lt_irrefl 0 hpos
    have hex : ∃ x ∈ (((buildNGrams terms).filter
        (fun t => decide (0 < tfLogIdf (buildIndex docs) t d.name))).map
        (fun t => Real.log (idf (buildIndex docs) t))), x ≠ 0 := by
      by_contra hall
      push_neg at hall
      exact hwt (List.sum_eq_zero hall)
    obtain ⟨x, hx, hxne⟩ := hex
    obtain ⟨t0, ht0, rfl⟩ := List.mem_map.mp hx
    rw [List.mem_filter] at ht0
    obtain ⟨ht0mem, ht0pos⟩ := ht0
    have ht0pos2 : 0 < tfLogIdf (buildIndex docs) t0 d.name := by simpa using ht0pos
    have hidfne : idf (buildIndex docs) t0 ≠ 1 := by
      intro h1
      rw [h1, Real.log_one] at hxne
      exact hxne rfl
    obtain ⟨p, hp, hpt, hpidf⟩ := built_idf_ne_one docs t0 hidfne
    have htf : tfVal (buildIndex docs) t0 d.name ≠ 0 := by
      intro h0
      unfold tfLogIdf at ht0pos2
      rw [h0] at ht0pos2
      simp at ht0pos2
    obtain ⟨q, hq, hqnm, _⟩ := tfVal_ne_zero (buildIndex docs) t0 d.name htf
    have hlk : lookupTermFreq (buildIndex docs) t0 = p.2 := by
      unfold lookupTermFreq
      rw [find?_eq_some_of_mem _ (built_keys_nodup docs) p hp t0 hpt]
    rw [hlk] at hq
    rw [← hqnm]
    exact mem_candidateNames (buildIndex docs) (buildNGrams terms) t0
      (built_keys_nodup docs) p hp hpt ht0mem q hq
  refine ⟨main, ?_⟩
  intro hnot
  by_cases hwt : specWT (buildIndex docs) terms d.name = 0
  · rw [hscore, if_pos hwt]
  · exfalso
    refine hnot (main ?_)
    rw [hscore, if_neg hwt]
    exact Real.exp_pos _

theorem c8_candidate_restriction_witness :
    (0 < (docScore (buildIndex [(⟨"a", ['x'], 1⟩ : Document)]) [['x']] ⟨"b", ['y'], 1⟩).score →
      (⟨"b", ['y'], 1⟩ : Document).name ∈
        candidateNames (buildIndex [(⟨"a", ['x'], 1⟩ : Document)]) (buildNGrams [['x']])) ∧
    ((⟨"b", ['y'], 1⟩ : Document).name ∉
        candidateNames (buildIndex [(⟨"a", ['x'], 1⟩ : Document)]) (buildNGrams [['x']]) →
      (docScore (buildIndex [(⟨"a", ['x'], 1⟩ : Document)]) [['x']] ⟨"b", ['y'], 1⟩).score = 0) :=
  c8_candidate_restriction [(⟨"a", ['x'], 1⟩ : Document)] [['x']] ⟨"b", ['y'], 1⟩

/-- The word "the" as a term. -/
def theT : Term := ['t', 'h', 'e']

/-- The word "end" as a term. -/
def endT : Term := ['e', 'n', 'd']

/-- The bigram "the end". -/
def theendT : Term := ['t', 'h', 'e', ' ', 'e', 'n', 'd']

/-- The bigram "end the". -/
def endtheT : Term := ['e', 'n', 'd', ' ', 't', 'h', 'e']

/-- The trigram "the end the". -/
def theendtheT : Term := ['t', 'h', 'e', ' ', 'e', 'n', 'd', ' ', 't', 'h', 'e']

/-- Concrete two-word document "the end" named a. -/
def docA : Document := ⟨"a", ['t', 'h', 'e', ' ', 'e', 'n', 'd'], 2⟩

/-- Concrete two-word document "end the" named b. -/
def docB : Document := ⟨"b", ['e', 'n', 'd', ' ', 't', 'h', 'e'], 2⟩

theorem docTermsA : docTerms defaultNormalizer docA = [theT, endT, theendT, theT, endT] := by
  decide

theorem docTermsB : docTerms defaultNormalizer docB = [endT, theT, endtheT, endT, theT] := by
  decide

theorem tfAdd_hit_pair (k : String) (x : ℝ) (m : List (String × ℝ)) (v : ℝ) :
    tfAdd ((k, x) :: m) k v = (k, x + v) :: m := by
  simp [tfAdd]

theorem tfAdd_miss_pair (k0 k : String) (x : ℝ) (m : List (String × ℝ)) (v : ℝ)
    (h : k0 ≠ k) : tfAdd ((k0, x) :: m) k v = (k0, x) :: tfAdd m k v := by
  simp [tfAdd, h]

/-- Evaluation of the first build pass on the concrete two-document corpus. -/
theorem phase1C : phase1 defaultNormalizer [docA, docB] =
    [(theT, ⟨0, [("a", 1 / ((2 : Nat) : ℝ) + 1 / ((2 : Nat) : ℝ)),
                 ("b", 1 / ((2 : Nat) : ℝ) + 1 / ((2 : Nat) : ℝ))]⟩),
     (endT, ⟨0, [("a", 1 / ((2 : Nat) : ℝ) + 1 / ((2 : Nat) : ℝ)),
                 ("b", 1 / ((2 : Nat) : ℝ) + 1 / ((2 : Nat) : ℝ))]⟩),
     (theendT, ⟨0, [("a", 1 / ((2 : Nat) : ℝ))]⟩),
     (endtheT, ⟨0, [("b", 1 / ((2 : Nat) : ℝ))]⟩)] := by
  simp only [phase1, List.foldl_cons, List.foldl_nil, indexDoc]
  rw [docTermsA, docTermsB]
  simp only [docA, docB]
  rw [fold_two_words theT endT theendT "a" (1 / ((2 : Nat) : ℝ))
    (by decide) (by decide) (by decide)]
  simp only [List.foldl_cons, List.foldl_nil]
  rw [addTerm_miss_pair _ _ _ _ _ _ (by decide : theT ≠ endT)]
  rw [addTerm_hit_pair]
  rw [tfAdd_miss_pair _ _ _ _ _ (by decide : "a" ≠ "b")]
  rw [show tfAdd ([] : List (String × ℝ)) "b" (1 / ((2 : Nat) : ℝ)) =
    [("b", 1 / ((2 : Nat) : ℝ))] from rfl]
  rw [addTerm_hit_pair]
  rw [tfAdd_miss_pair _ _ _ _ _ (by decide : "a" ≠ "b")]
  rw [show tfAdd ([] : List (String × ℝ)) "b" (1 / ((2 : Nat) : ℝ)) =
    [("b", 1 / ((2 : Nat) : ℝ))] from rfl]
  rw [addTerm_miss_pair _ _ _ _ _ _ (by decide : theT ≠ endtheT)]
  rw [addTerm_miss_pair _ _ _ _ _ _ (by decide : endT ≠ endtheT)]
  rw [addTerm_miss_pair _ _ _ _ _ _ (by decide : theendT ≠ endtheT)]
  rw [addTerm_nil]
  rw [addTerm_miss_pair _ _ _ _ _ _ (by decide : theT ≠ endT)]
  rw [addTerm_hit_pair]
  rw [tfAdd_miss_pair _ _ _ _ _ (by decide : "a" ≠ "b")]
  rw [tfAdd_hit_pair]
  rw [addTerm_hit_pair]
  rw [tfAdd_miss_pair _ _ _ _ _ (by decide : "a" ≠ "b")]
  rw [tfAdd_hit_pair]

theorem finalize_nil (dc : Nat) : finalize dc [] = [] := rfl

theorem finalize_cons_drop (dc : Nat) (p : Term × TermFreq) (tm : List (Term × TermFreq))
    (h : 1 / ((dc : ℝ) / (p.2.tfMap.length : ℝ)) ≥ maxThreshold dc) :
    finalize dc (p :: tm) = finalize dc tm := by
  unfold finalize
  simp only [List.map_cons]
  rw [List.filter_cons]
  rw [if_neg (by simp only [decide_eq_true_eq]; exact fun hn => hn h)]

theorem finalize_cons_keep (dc : Nat) (p : Term × TermFreq) (tm : List (Term × TermFreq))
    (h : ¬ (1 / ((dc : ℝ) / (p.2.tfMap.length : ℝ)) ≥ maxThreshold dc)) :
    finalize dc (p :: tm) =
      (p.1, TermFreq.mk ((dc : ℝ) / (p.2.tfMap.length : ℝ)) p.2.tfMap) :: finalize dc tm := by
  unfold finalize
  simp only [List.map_cons]
  rw [List.filter_cons]
  rw [if_pos (by simp only [decide_eq_true_eq]; exact h)]

/-- Evaluation of the built term table on the concrete corpus: the universal
unigrams are pruned, the two bigrams survive with idf 2. -/
theorem tMapC : (buildIndex [docA, docB]).tMap =
    [(theendT, ⟨2, [("a", 1 / ((2 : Nat) : ℝ))]⟩),
     (endtheT, ⟨2, [("b", 1 / ((2 : Nat) : ℝ))]⟩)] := by
  show finalize [docA, docB].length (phase1 defaultNormalizer [docA, docB]) = _
  rw [show [docA, docB].length = 2 from rfl, phase1C]
  rw [finalize_cons_drop _ _ _ (by
    simp only [List.length_cons, List.length_nil, maxThreshold_two]
    push_cast
    norm_num)]
  rw [finalize_cons_drop _ _ _ (by
    simp only [List.length_cons, List.length_nil, maxThreshold_two]
    push_cast
    norm_num)]
  rw [finalize_cons_keep _ _ _ (by
    simp only [List.length_cons, List.length_nil, maxThreshold_two]
    push_cast
    norm_num)]
  rw [finalize_cons_keep _ _ _ (by
    simp only [List.length_cons, List.length_nil, maxThreshold_two]
    push_cast
    norm_num)]
  rw [finalize_nil]
  norm_num

theorem lookupC_theend : lookupTermFreq (buildIndex [docA, docB]) theendT =
    ⟨2, [("a", 1 / ((2 : Nat) : ℝ))]⟩ := by
  unfold lookupTermFreq
  rw [tMapC, List.find?_cons_of_pos _ (by decide)]

theorem lookupC_endthe : lookupTermFreq (buildIndex [docA, docB]) endtheT =
    ⟨2, [("b", 1 / ((2 : Nat) : ℝ))]⟩ := by
  unfold lookupTermFreq
  rw [tMapC, List.find?_cons_of_neg _ (by decide), List.find?_cons_of_pos _ (by decide)]

theorem lookupC_absent (t : Term) (h1 : (theendT == t) = false) (h2 : (endtheT == t) = false) :
    lookupTermFreq (buildIndex [docA, docB]) t = ⟨0, []⟩ := by
  unfold lookupTermFreq
  rw [tMapC, List.find?_cons_of_neg _ (by simp [h1]), List.find?_cons_of_neg _ (by simp [h2]),
    List.find?_nil]

theorem idfC_theend : idf (buildIndex [docA, docB]) theendT = 2 := by
  unfold idf
  rw [lookupC_theend]
  norm_num

theorem idfC_endthe : idf (buildIndex [docA, docB]) endtheT = 2 := by
  unfold idf
  rw [lookupC_endthe]
  norm_num

theorem tfLogIdfC_absent (t : Term) (nm : String) (h1 : (theendT == t) = false)
    (h2 : (endtheT == t) = false) : tfLogIdf (buildIndex [docA, docB]) t nm = 0 := by
  unfold tfLogIdf tfVal
  rw [lookupC_absent t h1 h2]
  simp

theorem tfValC_theend_a : tfVal (buildIndex [docA, docB]) theendT "a" = 1 / ((2 : Nat) : ℝ) := by
  unfold tfVal
  rw [lookupC_theend]
  rw [show (TermFreq.mk 2 [("a", 1 / ((2 : Nat) : ℝ))]).tfMap = [("a", 1 / ((2 : Nat) : ℝ))]
    from rfl]
  rw [List.find?_cons_of_pos _ (by decide)]

theorem tfValC_endthe_b : tfVal (buildIndex [docA, docB]) endtheT "b" = 1 / ((2 : Nat) : ℝ) := by
  unfold tfVal
  rw [lookupC_endthe]
  rw [show (TermFreq.mk 2 [("b", 1 / ((2 : Nat) : ℝ))]).tfMap = [("b", 1 / ((2 : Nat) : ℝ))]
    from rfl]
  rw [List.find?_cons_of_pos _ (by decide)]

theorem tfLogIdfC_theend_b : tfLogIdf (buildIndex [docA, docB]) theendT "b" = 0 := by
  unfold tfLogIdf tfVal
  rw [lookupC_theend]
  rw [show (TermFreq.mk 2 [("a", 1 / ((2 : Nat) : ℝ))]).tfMap = [("a", 1 / ((2 : Nat) : ℝ))]
    from rfl]
  rw [List.find?_cons_of_neg _ (by decide), List.find?_nil]
  simp

theorem tfLogIdfC_endthe_a : tfLogIdf (buildIndex [docA, docB]) endtheT "a" = 0 := by
  unfold tfLogIdf tfVal
  rw [lookupC_endthe]
  rw [show (TermFreq.mk 2 [("b", 1 / ((2 : Nat) : ℝ))]).tfMap = [("b", 1 / ((2 : Nat) : ℝ))]
    from rfl]
  rw [List.find?_cons_of_neg _ (by decide), List.find?_nil]
  simp

theorem tfNormC_theend : tfNorm (buildIndex [docA, docB]) theendT =
    Real.log 2 * (1 / ((2 : Nat) : ℝ)) := by
  unfold tfNorm
  rw [lookupC_theend]
  simp only [List.map_cons, List.map_nil, List.sum_cons, List.sum_nil, add_zero]
  have hlog : (0 : ℝ) < Real.log 2 := Real.log_pos one_lt_two
  have hv : (0 : ℝ) < 1 / ((2 : Nat) : ℝ) := by positivity
  rw [if_neg (by positivity)]
  rw [show (Real.log (2 : ℝ) * (1 / ((2 : Nat) : ℝ))) * (Real.log 2 * (1 / ((2 : Nat) : ℝ))) =
    (Real.log 2 * (1 / ((2 : Nat) : ℝ))) ^ 2 from by ring]
  exact Real.sqrt_sq (by positivity)

theorem tfNormC_endthe : tfNorm (buildIndex [docA, docB]) endtheT =
    Real.log 2 * (1 / ((2 : Nat) : ℝ)) := by
  unfold tfNorm
  rw [lookupC_endthe]
  simp only [List.map_cons, List.map_nil, List.sum_cons, List.sum_nil, add_zero]
  have hlog : (0 : ℝ) < Real.log 2 := Real.log_pos one_lt_two
  have hv : (0 : ℝ) < 1 / ((2 : Nat) : ℝ) := by positivity
  rw [if_neg (by positivity)]
  rw [show (Real.log (2 : ℝ) * (1 / ((2 : Nat) : ℝ))) * (Real.log 2 * (1 / ((2 : Nat) : ℝ))) =
    (Real.log 2 * (1 / ((2 : Nat) : ℝ))) ^ 2 from by ring]
  exact Real.sqrt_sq (by positivity)

theorem tfLogIdfC_theend_a : tfLogIdf (buildIndex [docA, docB]) theendT "a" = 1 := by
  unfold tfLogIdf
  rw [tfValC_theend_a, idfC_theend, tfNormC_theend]
  have hlog : Real.log 2 ≠ 0 := ne_of_gt (Real.log_pos one_lt_two)
  have hv : ((2 : Nat) : ℝ) ≠ 0 := by push_cast; norm_num
  field_simp

theorem tfLogIdfC_endthe_b : tfLogIdf (buildIndex [docA, docB]) endtheT "b" = 1 := by
  unfold tfLogIdf
  rw [tfValC_endthe_b, idfC_endthe, tfNormC_endthe]
  have hlog : Real.log 2 ≠ 0 := ne_of_gt (Real.log_pos one_lt_two)
  have hv : ((2 : Nat) : ℝ) ≠ 0 := by push_cast; norm_num
  field_simp

theorem scoreStep_skip (idx : Index) (nm : String) (acc : ℝ × ℝ) (t : Term)
    (h : tfLogIdf idx (lowerTerm t) nm = 0) : scoreStep idx nm acc t = acc := by
  unfold scoreStep
  show (if 0 < tfLogIdf idx (lowerTerm t) nm then
    (acc.1 + Real.log (idf idx t) * Real.log (tfLogIdf idx (lowerTerm t) nm),
     acc.2 + Real.log (idf idx t)) else acc) = acc
  rw [h, if_neg (lt_irrefl 0)]

theorem scoreStep_take (idx : Index) (nm : String) (acc : ℝ × ℝ) (t : Term) (s : ℝ)
    (h : tfLogIdf idx (lowerTerm t) nm = s) (hs : 0 < s) :
    scoreStep idx nm acc t =
      (acc.1 + Real.log (idf idx t) * Real.log s, acc.2 + Real.log (idf idx t)) := by
  unfold scoreStep
  show (if 0 < tfLogIdf idx (lowerTerm t) nm then
    (acc.1 + Real.log (idf idx t) * Real.log (tfLogIdf idx (lowerTerm t) nm),
     acc.2 + Real.log (idf idx t)) else acc) = _
  rw [h, if_pos hs]

theorem docScoreC_A : docScore (buildIndex [docA, docB]) [theT, endT, theT] docA =
    ⟨docA, 1⟩ := by
  unfold docScore
  rw [show buildNGrams [theT, endT, theT] = [theT, endT, theT, theendT, endtheT, theendtheT]
    from by decide]
  simp only [List.foldl_cons, List.foldl_nil]
  rw [scoreStep_skip _ _ _ theT (by
    rw [show lowerTerm theT = theT from by decide]
    exact tfLogIdfC_absent theT docA.name (by decide) (by decide))]
  rw [scoreStep_skip _ _ _ endT (by
    rw [show lowerTerm endT = endT from by decide]
    exact tfLogIdfC_absent endT docA.name (by decide) (by decide))]
  rw [scoreStep_skip _ _ _ theT (by
    rw [show lowerTerm theT = theT from by decide]
    exact tfLogIdfC_absent theT docA.name (by decide) (by decide))]
  rw [scoreStep_take _ _ _ theendT 1 (by
    rw [show lowerTerm theendT = theendT from by decide]
    exact tfLogIdfC_theend_a) one_pos]
  rw [scoreStep_skip _ _ _ endtheT (by
    rw [show lowerTerm endtheT = endtheT from by decide]
    exact tfLogIdfC_endthe_a)]
  rw [scoreStep_skip _ _ _ theendtheT (by
    rw [show lowerTerm theendtheT = theendtheT from by decide]
    exact tfLogIdfC_absent theendtheT docA.name (by decide) (by decide))]
  rw [idfC_theend]
  have hlog : (0 : ℝ) < Real.log 2 := Real.log_pos one_lt_two
  rw [if_neg (by simpa using ne_of_gt hlog)]
  rw [Real.log_one]
  norm_num

theorem docScoreC_B : docScore (buildIndex [docA, docB]) [theT, endT, theT] docB =
    ⟨docB, 1⟩ := by
  unfold docScore
  rw [show buildNGrams [theT, endT, theT] = [theT, endT, theT, theendT, endtheT, theendtheT]
    from by decide]
  simp only [List.foldl_cons, List.foldl_nil]
  rw [scoreStep_skip _ _ _ theT (by
    rw [show lowerTerm theT = theT from by decide]
    exact tfLogIdfC_absent theT docB.name (by decide) (by decide))]
  rw [scoreStep_skip _ _ _ endT (by
    rw [show lowerTerm endT = endT from by decide]
    exact tfLogIdfC_absent endT docB.name (by decide) (by decide))]
  rw [scoreStep_skip _ _ _ theT (by
    rw [show lowerTerm theT = theT from by decide]
    exact tfLogIdfC_absent theT docB.name (by decide) (by decide))]
  rw [scoreStep_skip _ _ _ theendT (by
    rw [show lowerTerm theendT = theendT from by decide]
    exact tfLogIdfC_theend_b)]
  rw [scoreStep_take _ _ _ endtheT 1 (by
    rw [show lowerTerm endtheT = endtheT from by decide]
    exact tfLogIdfC_endthe_b) one_pos]
  rw [scoreStep_skip _ _ _ theendtheT (by
    rw [show lowerTerm theendtheT = theendtheT from by decide]
    exact tfLogIdfC_absent theendtheT docB.name (by decide) (by decide))]
  rw [idfC_endthe]
  have hlog : (0 : ℝ) < Real.log 2 := Real.log_pos one_lt_two
  rw [if_neg (by simpa using ne_of_gt hlog)]
  rw [Real.log_one]
  norm_num

theorem hfC_the : (buildIndex [docA, docB]).tMap.find? (fun p => p.1 == theT) = none := by
  rw [tMapC, List.find?_cons_of_neg _ (by decide), List.find?_cons_of_neg _ (by decide),
    List.find?_nil]

theorem hfC_end : (buildIndex [docA, docB]).tMap.find? (fun p => p.1 == endT) = none := by
  rw [tMapC, List.find?_cons_of_neg _ (by decide), List.find?_cons_of_neg _ (by decide),
    List.find?_nil]

theorem hfC_tri : (buildIndex [docA, docB]).tMap.find? (fun p => p.1 == theendtheT) = none := by
  rw [tMapC, List.find?_cons_of_neg _ (by decide), List.find?_cons_of_neg _ (by decide),
    List.find?_nil]

theorem hfC_theend : (buildIndex [docA, docB]).tMap.find? (fun p => p.1 == theendT) =
    some (theendT, ⟨2, [("a", 1 / ((2 : Nat) : ℝ))]⟩) := by
  rw [tMapC, List.find?_cons_of_pos _ (by decide)]

theorem hfC_endthe : (buildIndex [docA, docB]).tMap.find? (fun p => p.1 == endtheT) =
    some (endtheT, ⟨2, [("b", 1 / ((2 : Nat) : ℝ))]⟩) := by
  rw [tMapC, List.find?_cons_of_neg _ (by decide), List.find?_cons_of_pos _ (by decide)]

theorem candsC_q1 : candidateNames (buildIndex [docA, docB])
    (buildNGrams [theT, endT, theT]) = ["a", "b"] := by
  rw [show buildNGrams [theT, endT, theT] = [theT, endT, theT, theendT, endtheT, theendtheT]
    from by decide]
  unfold candidateNames
  simp only [List.foldl_cons, List.foldl_nil, hfC_the, hfC_end, hfC_theend, hfC_endthe, hfC_tri]
  rfl

theorem candsC_q7 : candidateNames (buildIndex [docA, docB])
    (buildNGrams [theT, endT]) = ["a"] := by
  rw [show buildNGrams [theT, endT] = [theT, endT, theendT, theT, endT] from by decide]
  unfold candidateNames
  simp only [List.foldl_cons, List.foldl_nil, hfC_the, hfC_end, hfC_theend]
  rfl

theorem docLookupC_a : docLookup (buildIndex [docA, docB]) "a" = docA := by
  unfold docLookup
  rw [show (buildIndex [docA, docB]).docs = [docA, docB] from rfl,
    List.find?_cons_of_pos _ (by decide)]

theorem docLookupC_b : docLookup (buildIndex [docA, docB]) "b" = docB := by
  unfold docLookup
  rw [show (buildIndex [docA, docB]).docs = [docA, docB] from rfl,
    List.find?_cons_of_neg _ (by decide), List.find?_cons_of_pos _ (by decide)]

theorem heapPush_nil (x : SearchResult) : heapPush [] x = [x] := by
  unfold heapPush
  show upHeap [x] (([x] : List SearchResult).length - 1) = [x]
  show upHeap [x] 0 = [x]
  rw [upHeap]

theorem heapPop_single (x : SearchResult) : heapPop [x] = (x, []) := by
  unfold heapPop
  show ((downHeap (hswap [x] 0 0) 0 0).getLastD dummyResult,
    (downHeap (hswap [x] 0 0) 0 0).dropLast) = (x, [])
  rw [show hswap [x] 0 0 = [x] from rfl]
  rw [downHeap, dif_neg (by omega)]
  rfl

theorem docScoreC_A_q7 : docScore (buildIndex [docA, docB]) [theT, endT] docA =
    ⟨docA, 1⟩ := by
  unfold docScore
  rw [show buildNGrams [theT, endT] = [theT, endT, theendT, theT, endT] from by decide]
  simp only [List.foldl_cons, List.foldl_nil]
  rw [scoreStep_skip _ _ _ theT (by
    rw [show lowerTerm theT = theT from by decide]
    exact tfLogIdfC_absent theT docA.name (by decide) (by decide))]
  rw [scoreStep_skip _ _ _ endT (by
    rw [show lowerTerm endT = endT from by decide]
    exact tfLogIdfC_absent endT docA.name (by decide) (by decide))]
  rw [scoreStep_take _ _ _ theendT 1 (by
    rw [show lowerTerm theendT = theendT from by decide]
    exact tfLogIdfC_theend_a) one_pos]
  rw [scoreStep_skip _ _ _ theT (by
    rw [show lowerTerm theT = theT from by decide]
    exact tfLogIdfC_absent theT docA.name (by decide) (by decide))]
  rw [scoreStep_skip _ _ _ endT (by
    rw [show lowerTerm endT = endT from by decide]
    exact tfLogIdfC_absent endT docA.name (by decide) (by decide))]
  rw [idfC_theend]
  have hlog : (0 : ℝ) < Real.log 2 := Real.log_pos one_lt_two
  rw [if_neg (by simpa using ne_of_gt hlog)]
  rw [Real.log_one]
  norm_num

theorem searchStepC_a_lim1 : searchStep (buildIndex [docA, docB]) [theT, endT, theT] 1 "a" [] [] =
    some ([⟨docA, 1⟩], [⟨docA, 1⟩]) := by
  simp only [searchStep, docLookupC_a, docScoreC_A]
  norm_num [heapPush_nil]

theorem searchStepC_b_lim1 : searchStep (buildIndex [docA, docB]) [theT, endT, theT] 1 "b"
    [⟨docA, 1⟩] [⟨docA, 1⟩] = some ([⟨docA, 1⟩, ⟨docB, 1⟩], [⟨docA, 1⟩]) := by
  simp only [searchStep, docLookupC_b, docScoreC_B]
  norm_num

theorem searchStepC_a_lim0 : searchStep (buildIndex [docA, docB]) [theT, endT, theT] 0 "a" [] [] =
    none := by
  simp only [searchStep, docLookupC_a, docScoreC_A]
  norm_num

theorem searchStepC_a_q7 : searchStep (buildIndex [docA, docB]) [theT, endT] 5 "a" [] [] =
    some ([⟨docA, 1⟩], [⟨docA, 1⟩]) := by
  simp only [searchStep, docLookupC_a, docScoreC_A_q7]
  norm_num [heapPush_nil]

theorem drainLoop_one (results h : List SearchResult) :
    drainLoop results h 1 = results.set 0 (heapPop h).1 := rfl

theorem searchLoopC1 : searchLoop (buildIndex [docA, docB]) [theT, endT, theT] 1 ["a", "b"] [] [] =
    some ([⟨docA, 1⟩, ⟨docB, 1⟩], [⟨docA, 1⟩]) := by
  rw [searchLoop, searchStepC_a_lim1]
  show searchLoop (buildIndex [docA, docB]) [theT, endT, theT] 1 ["b"] [⟨docA, 1⟩] [⟨docA, 1⟩] = _
  rw [searchLoop, searchStepC_b_lim1]
  show searchLoop (buildIndex [docA, docB]) [theT, endT, theT] 1 []
    [⟨docA, 1⟩, ⟨docB, 1⟩] [⟨docA, 1⟩] = _
  rw [searchLoop]

theorem searchLoopC2 : searchLoop (buildIndex [docA, docB]) [theT, endT, theT] 0 ["a", "b"] [] [] =
    none := by
  rw [searchLoop, searchStepC_a_lim0]

theorem searchLoopC7 : searchLoop (buildIndex [docA, docB]) [theT, endT] 5 ["a"] [] [] =
    some ([⟨docA, 1⟩], [⟨docA, 1⟩]) := by
  rw [searchLoop, searchStepC_a_q7]
  show searchLoop (buildIndex [docA, docB]) [theT, endT] 5 [] [⟨docA, 1⟩] [⟨docA, 1⟩] = _
  rw [searchLoop]

/-- C1 (bug evidence): with limit 1 and two positively scoring candidates,
Search returns two results, one per positive candidate — the drain only
overwrites the first heap-size slots of the over-appended results list, so
the output is not bounded by the limit. -/
theorem c1_search_exceeds_limit :
    search (buildIndex [docA, docB]) [theT, endT, theT] 1 =
      some [⟨docA, 1⟩, ⟨docB, 1⟩] ∧
    [(⟨docA, 1⟩ : SearchResult), ⟨docB, 1⟩].length = 2 := by
  constructor
  · unfold search
    rw [if_neg (by norm_num), candsC_q1, searchLoopC1]
    show some (drainLoop [⟨docA, 1⟩, ⟨docB, 1⟩] [⟨docA, 1⟩] 1) = _
    rw [drainLoop_one, heapPop_single]
    rfl
  · rfl

/-- C2 (bug evidence): with limit 0 and a positively scoring candidate,
Search reads (*h)[0] on the empty heap and panics instead of returning an
empty result list. -/
theorem c2_limit_zero_panics :
    search (buildIndex [docA, docB]) [theT, endT, theT] 0 = none := by
  unfold search
  rw [if_neg (by norm_num), candsC_q1, searchLoopC2]

/-- C7 (counterexample): on the built two-document corpus both query terms
are absent from the term table, the index is nonempty, yet the search
returns a nonempty result list — the n-gram expansion of the query produces
the surviving bigram. -/
theorem c7_counterexample :
    (∀ p ∈ (buildIndex [docA, docB]).tMap, p.1 ≠ theT ∧ p.1 ≠ endT) ∧
    (buildIndex [docA, docB]).docs ≠ [] ∧
    search (buildIndex [docA, docB]) [theT, endT] 5 = some [⟨docA, 1⟩] := by
  refine ⟨?_, ?_, ?_⟩
  · intro p hp
    rw [tMapC] at hp
    rcases List.mem_cons.mp hp with h | h
    · subst h
      exact ⟨by decide, by decide⟩
    · simp only [List.mem_singleton] at h
      subst h
      exact ⟨by decide, by decide⟩
  · rw [show (buildIndex [docA, docB]).docs = [docA, docB] from rfl]
    simp
  · unfold search
    rw [if_neg (by norm_num), candsC_q7, searchLoopC7]
    show some (drainLoop [⟨docA, 1⟩] [⟨docA, 1⟩] 1) = _
    rw [drainLoop_one, heapPop_single]
    rfl

theorem candFold_absent (idx : Index) :
    ∀ (l : List Term) (cs : List String), (∀ t ∈ l, ∀ p ∈ idx.tMap, p.1 ≠ t) →
      l.foldl (fun cs t => match idx.tMap.find? (fun p => p.1 == t) with
        | some p => p.2.tfMap.foldl (fun cs q => insertName cs q.1) cs
        | none => cs) cs = cs := by
  intro l
  induction l with
  | nil => intro cs _; rfl
  | cons t l ih =>
    intro cs habs
    rw [List.foldl_cons]
    have hf : idx.tMap.find? (fun p => p.1 == t) = none := by
      rw [List.find?_eq_none]
      intro p hp
      simpa using habs t (List.mem_cons_self _ _) p hp
    rw [hf]
    exact ih cs (fun u hu p hp => habs u (List.mem_cons_of_mem _ hu) p hp)

/-- C7 (amended): a query term absent from the term table is never an error:
its idf and tfNorm default to 1.0, its scoring step leaves the score
accumulator unchanged, and a query all of whose n-gram-expanded terms are
absent from the table returns an empty result list rather than failing. -/
theorem c7_unknown_terms_neutral :
    (∀ (idx : Index) (t : Term), (∀ p ∈ idx.tMap, p.1 ≠ t) →
      idf idx t = 1 ∧ tfNorm idx t = 1) ∧
    (∀ (idx : Index) (docName : String) (acc : ℝ × ℝ) (t : Term),
      (∀ p ∈ idx.tMap, p.1 ≠ t) → scoreStep idx docName acc t = acc) ∧
    (∀ (idx : Index) (terms : List Term) (limit : ℤ), 0 ≤ limit →
      (∀ t ∈ buildNGrams terms, ∀ p ∈ idx.tMap, p.1 ≠ t) →
      search idx terms limit = some []) := by
  refine ⟨?_, ?_, ?_⟩
  · intro idx t h
    exact ⟨absent_idf idx t h, absent_tfNorm idx t h⟩
  · intro idx docName acc t h
    unfold scoreStep
    rw [absent_idf idx t h]
    show (if 0 < tfLogIdf idx (lowerTerm t) docName then
      (acc.1 + Real.log 1 * Real.log (tfLogIdf idx (lowerTerm t) docName),
       acc.2 + Real.log 1) else acc) = acc
    split
    · simp
    · rfl
  · intro idx terms limit hlim habs
    unfold search
    rw [if_neg (not_lt.mpr hlim)]
    rw [show candidateNames idx (buildNGrams terms) = [] from
      candFold_absent idx (buildNGrams terms) [] habs]
    rw [searchLoop]
    rfl

theorem c7_unknown_terms_neutral_witness :
    (idf ⟨[], []⟩ ['x'] = 1 ∧ tfNorm ⟨[], []⟩ ['x'] = 1) ∧
    scoreStep ⟨[], []⟩ "a" (0, 0) ['x'] = (0, 0) ∧
    search ⟨[], []⟩ [['x']] 5 = some [] :=
  ⟨c7_unknown_terms_neutral.1 ⟨[], []⟩ ['x'] (by simp),
   c7_unknown_terms_neutral.2.1 ⟨[], []⟩ "a" (0, 0) ['x'] (by simp),
   c7_unknown_terms_neutral.2.2 ⟨[], []⟩ [['x']] 5 (by norm_num) (by simp)⟩
